import Mathlib

/-!
Shallow embedding of `utils/frame/benchmarking-cli/src/writer.rs` (Substrate
benchmark writer).  The external regression routine
`Analysis::min_squares_iqr` is not part of the source under review, so it is
modelled as an abstract function parameter `Regress`.  Byte-vector names
(`Vec<u8>` decoded with `String::from_utf8(..).unwrap()`) are modelled
directly as `String`s.  `u128` arithmetic is modelled on `Nat` with explicit
saturation at `2^128 - 1` where the source saturates.
-/

namespace BenchWriter

/-- Mirrors `frame_benchmarking::BenchmarkResults`: one measurement row.
Component names (`BenchmarkParameter`) are modelled as strings. -/
structure BenchmarkResults where
  components : List (String × Nat)
  extrinsic_time : Nat
  storage_root_time : Nat
  reads : Nat
  repeat_reads : Nat
  writes : Nat
  repeat_writes : Nat
deriving DecidableEq

/-- Mirrors `frame_benchmarking::BenchmarkBatch`; `pallet` and `benchmark`
are the UTF-8 decodings of the byte vectors of the source. -/
structure BenchmarkBatch where
  pallet : String
  benchmark : String
  results : List BenchmarkResults
deriving DecidableEq

/-- Mirrors `frame_benchmarking::BenchmarkSelector`. -/
inductive BenchmarkSelector where
  | extrinsicTime
  | storageRootTime
  | reads
  | writes
deriving DecidableEq

/-- Mirrors the fields of `frame_benchmarking::Analysis` that the writer
uses: the fitted intercept `base`, the per-component `slopes`, and the
component `names` (all `u128`/`String` in the source). -/
structure Analysis where
  base : Nat
  slopes : List Nat
  names : List String
deriving DecidableEq

/-- The external regression routine `Analysis::min_squares_iqr`, an
abstract collaborator: it is not implemented in the source under review.
The source unwraps its `Option` result; we model it as total. -/
def Regress : Type :=
  List BenchmarkResults → BenchmarkSelector → Analysis

/-- Mirrors `struct ComponentSlope { name, slope }` (slope is `u128`). -/
structure ComponentSlope where
  name : String
  slope : Nat
deriving DecidableEq

/-- Mirrors `struct Component { name, is_used }`. -/
structure Component where
  name : String
  is_used : Bool
deriving DecidableEq

/-- Mirrors `struct BenchmarkData`. -/
structure BenchmarkData where
  name : String
  components : List Component
  base_weight : Nat
  base_reads : Nat
  base_writes : Nat
  component_weight : List ComponentSlope
  component_reads : List ComponentSlope
  component_writes : List ComponentSlope
deriving DecidableEq

/-- Decidable equality for `Except`, used to evaluate results on
concrete inputs. -/
instance {eps alpha : Type} [DecidableEq eps] [DecidableEq alpha] :
    DecidableEq (Except eps alpha) := fun x y =>
  match x, y with
  | .error a, .error b =>
    match decEq a b with
    | isTrue h => isTrue (by rw [h])
    | isFalse h => isFalse (fun hc => by cases hc; exact h rfl)
  | .error _, .ok _ => isFalse (fun hc => by cases hc)
  | .ok _, .error _ => isFalse (fun hc => by cases hc)
  | .ok a, .ok b =>
    match decEq a b with
    | isTrue h => isTrue (by rw [h])
    | isFalse h => isFalse (fun hc => by cases hc; exact h rfl)

/-- Largest `u128` value. -/
def U128_MAX : Nat := 2 ^ 128 - 1

/-- Model of `u128::saturating_mul(x, 1000)` on `Nat`. -/
def saturatingMul1000 (x : Nat) : Nat := min (x * 1000) U128_MAX

/-- One of the three `for_each` loops of `get_benchmark_data` over
`slopes.into_iter().zip(names.iter())`: skips zero slopes, records each
newly seen name in `used` (the shared `used_components` vector), and
collects the surviving `ComponentSlope`s in iteration order.  The time
loop (`scaled = true`) stores `slope.saturating_mul(1000)`. -/
def slopeLoop (scaled : Bool) :
    List (Nat × String) → List String → List String × List ComponentSlope
  | [], used => (used, [])
  | (slope, name) :: rest, used =>
    if slope = 0 then
      slopeLoop scaled rest used
    else
      let used' := if name ∈ used then used else used ++ [name]
      let (u, cs) := slopeLoop scaled rest used'
      (u, ⟨name, if scaled then saturatingMul1000 slope else slope⟩ :: cs)

/-- Instrumented call of the external regression routine: returns the
analysis together with the call log extended by the selector used.  Each
textual call site of `Analysis::min_squares_iqr` in the source goes
through this wrapper. -/
def callRegress (re : Regress) (rs : List BenchmarkResults)
    (sel : BenchmarkSelector) (log : List BenchmarkSelector) :
    Analysis × List BenchmarkSelector :=
  (re rs sel, log ++ [sel])

/-- Embedding of `get_benchmark_data`, together with the log of regression
calls made.  The `batch.results[0]` access of the source is the `match`
on `batch.results`: a panicking out-of-bounds access is modelled as
`none`. -/
def get_benchmark_data_log (re : Regress) (batch : BenchmarkBatch) :
    Option BenchmarkData × List BenchmarkSelector :=
  let (extrinsic_time, log1) := callRegress re batch.results .extrinsicTime []
  let (reads, log2) := callRegress re batch.results .reads log1
  let (writes, log3) := callRegress re batch.results .writes log2
  let (u1, used_extrinsic_time) :=
    slopeLoop true (extrinsic_time.slopes.zip extrinsic_time.names) []
  let (u2, used_reads) := slopeLoop false (reads.slopes.zip reads.names) u1
  let (u3, used_writes) := slopeLoop false (writes.slopes.zip writes.names) u2
  match batch.results with
  | [] => (none, log3)
  | r0 :: _ =>
    let components := r0.components.map (fun nc =>
      { name := nc.1, is_used := decide (nc.1 ∈ u3) : Component })
    (some {
      name := batch.benchmark
      components := components
      base_weight := saturatingMul1000 extrinsic_time.base
      base_reads := reads.base
      base_writes := writes.base
      component_weight := used_extrinsic_time
      component_reads := used_reads
      component_writes := used_writes }, log3)

/-- Embedding of `get_benchmark_data` (result component of the logged
version). -/
def get_benchmark_data (re : Regress) (batch : BenchmarkBatch) :
    Option BenchmarkData :=
  (get_benchmark_data_log re batch).1

/-- Lookup in an association-list model of `HashMap<String, β>`. -/
def afind {β : Type} : List (String × β) → String → Option β
  | [], _ => none
  | (k, v) :: rest, q => if q = k then some v else afind rest q

/-- Insert of the association-list model of `HashMap::insert`: replaces
the binding of an existing key in place, otherwise appends. -/
def ainsert {β : Type} : List (String × β) → String → β → List (String × β)
  | [], k, v => [(k, v)]
  | (k', v') :: rest, k, v =>
    if k' = k then (k, v) :: rest else (k', v') :: ainsert rest k v

/-- Failure modes of `map_results`: the explicit "empty batches" error,
and the (unreachable) panic of the `batch.results[0]` access inside
`get_benchmark_data`. -/
inductive WriterErr where
  | emptyBatches
  | panicked
deriving DecidableEq

/-- One inner map of `map_results` (benchmark name → data). -/
abbrev PalletMap : Type := List (String × BenchmarkData)

/-- The two-level map returned by `map_results`. -/
abbrev AllMap : Type := List (String × PalletMap)

/-- The `while let Some(batch) = batches_iter.next()` loop of
`map_results`, with `pm` the current `pallet_map` and `all` the
`all_benchmarks` accumulator.  The `match rest` mirrors
`batches_iter.peek()`. -/
def map_results_go (re : Regress) :
    List BenchmarkBatch → PalletMap → AllMap → Except WriterErr AllMap
  | [], _, all => .ok all
  | b :: rest, pm, all =>
    if b.results.isEmpty then
      map_results_go re rest pm all
    else
      match get_benchmark_data re b with
      | none => .error .panicked
      | some bd =>
        let pm' := ainsert pm b.benchmark bd
        match rest with
        | [] => .ok (ainsert all b.pallet pm')
        | nxt :: _ =>
          if nxt.pallet = b.pallet then
            map_results_go re rest pm' all
          else
            map_results_go re rest [] (ainsert all b.pallet pm')

/-- Embedding of `map_results`. -/
def map_results (re : Regress) (batches : List BenchmarkBatch) :
    Except WriterErr AllMap :=
  if batches.isEmpty then .error .emptyBatches
  else map_results_go re batches [] []

/-! Specification-side helpers used to state properties of `map_results`. -/

/-- One `pallet_map.insert` step for a batch (skipping a batch whose
`get_benchmark_data` would panic; under the hypotheses used it is
always `some`). -/
def insStep (re : Regress) (pm : PalletMap) (y : BenchmarkBatch) : PalletMap :=
  match get_benchmark_data re y with
  | some d => ainsert pm y.benchmark d
  | none => pm

/-- The inner map one contiguous run of batches of a single pallet
produces: the successive `pallet_map.insert` calls. -/
def buildRun (re : Regress) (ys : List BenchmarkBatch) : PalletMap :=
  ys.foldl (insStep re) []

/-- Collapse of adjacent duplicates: the list of maximal runs of a list.
`(runsOf l).Nodup` states that equal values are contiguous in `l`. -/
def runsOf : List String → List String
  | [] => []
  | [p] => [p]
  | p :: q :: rest =>
    if p = q then runsOf (q :: rest) else p :: runsOf (q :: rest)

/-! Embedding of the `underscore` helper. -/

/-- One step of the `for (idx, val) in i_str.chars().rev().enumerate()`
loop of `underscore`: optionally `insert(0, '_')`, then `insert(0, val)`.
The accumulator pairs the string built so far with the iteration index. -/
def underscoreStep (acc : List Char × Nat) (c : Char) : List Char × Nat :=
  let s := if acc.2 ≠ 0 ∧ acc.2 % 3 = 0 then '_' :: acc.1 else acc.1
  (c :: s, acc.2 + 1)

/-- Embedding of the `underscore` function: folds over the reversed
character list with the enumeration index. -/
def underscore (s : String) : String :=
  ⟨(s.data.reverse.foldl underscoreStep ([], 0)).1⟩

/-- Specification-side: chunks of (at most) three from the left. -/
def chunk3 : List Char → List (List Char)
  | [] => []
  | [c1] => [[c1]]
  | [c1, c2] => [[c1, c2]]
  | c1 :: c2 :: c3 :: rest => [c1, c2, c3] :: chunk3 rest

/-- Specification-side: the groups of three counted from the right end of
a character list; the leftmost group may be shorter. -/
def groupsRight (l : List Char) : List (List Char) :=
  ((chunk3 l.reverse).map List.reverse).reverse

/-- Specification-side: join character groups with `'_'` separators. -/
def joinSep : List (List Char) → List Char
  | [] => []
  | [g] => g
  | g :: gs => g ++ '_' :: joinSep gs

/-! Embedding of the Handlebars helpers.  The `handlebars::JsonRender`
rendering of a JSON value is an external collaborator; the helpers are
parametrised over it. -/

/-- A JSON value as seen by the Handlebars helpers. -/
inductive Json where
  | null
  | bool (b : Bool)
  | num (n : Int)
  | str (s : String)
  | arr (elems : List Json)
  | obj (fields : List (String × Json))

/-- Mirrors `serde_json::Value::is_array`. -/
def Json.isArray : Json → Bool
  | .arr _ => true
  | _ => false

/-- Mirrors `serde_json::Value::as_array` (an `Option`, unwrapped at the
call site in `JoinHelper`). -/
def Json.asArray : Json → Option (List Json)
  | .arr elems => some elems
  | _ => none

/-- Output string of `JoinHelper::call` on the parameter value `v`,
parametrised over the external `render` function; `none` models the
`as_array().unwrap()` panic (unreachable, since it is guarded by
`is_array`). -/
def joinHelperOut (render : Json → String) (v : Json) : Option String :=
  if v.isArray then
    (v.asArray).map (fun elems =>
      String.intercalate (" ") (elems.map render))
  else
    some (render v)

/-- Output string of `UnderscoreHelper::call` on the parameter value `v`:
the `underscore` function applied to the rendering of `v`. -/
def underscoreHelperOut (render : Json → String) (v : Json) : String :=
  underscore (render v)

/-! Embedding of `write_results` and its environment. -/

/-- A filesystem path, modelled as its list of components (mirrors the
`PathBuf` operations the source uses: `file_name`, `push`,
`set_extension`). -/
structure RPath where
  components : List String
deriving DecidableEq

/-- Mirrors `PathBuf::file_name`: the last component, if any. -/
def RPath.fileName (p : RPath) : Option String :=
  p.components.getLast?

/-- Split a character list on `'/'` (the path separator), keeping empty
segments. -/
def splitSlash : List Char → List (List Char)
  | [] => [[]]
  | c :: rest =>
    let r := splitSlash rest
    if c = '/' then [] :: r
    else
      match r with
      | [] => [[c]]
      | seg :: segs => (c :: seg) :: segs

/-- Mirrors `PathBuf::push`: the pushed string is split into path
components on the separator, and empty segments (repeated or trailing
separators) denote no component, as in the `Path` component
normalisation — so pushing `b` and `b/` (or `a/b` and `a//b`) yield the
same path.  (Pushing an absolute path replaces the whole path in Rust;
on the rootless empty base paths this model applies it to, that
coincides with appending the components.) -/
def RPath.push (p : RPath) (c : String) : RPath :=
  ⟨p.components ++
    ((splitSlash c.data).filter (fun seg => decide (seg ≠ []))).map String.mk⟩

/-- Position just after the last dot of `cs`, provided a dot occurs at a
position other than the start (mirrors the extension split of `Path`:
a leading dot does not start an extension). -/
def extSplit (cs : List Char) : Option Nat :=
  let n := (cs.reverse.takeWhile (fun c => c ≠ '.')).length
  if n + 1 ≤ cs.length ∧ cs.length - (n + 1) ≠ 0 then some (cs.length - n)
  else none

/-- Mirrors `PathBuf::set_extension` on the final component: replaces an
existing extension, otherwise appends one. -/
def RPath.setExtension (p : RPath) (ext : String) : RPath :=
  match p.components.getLast? with
  | none => p
  | some last =>
    let stem :=
      match extSplit last.data with
      | some i => ⟨last.data.take (i - 1)⟩
      | none => last
    ⟨p.components.dropLast ++ [stem ++ (".") ++ ext]⟩

/-- An I/O error, carrying its message (mirrors `std::io::Error` as the
source uses it). -/
structure IOError where
  msg : String
deriving DecidableEq

/-- Mirrors the `io_error` helper of the source. -/
def io_error (s : String) : IOError := ⟨s⟩

/-- Mirrors the fields of `BenchmarkCmd` that `write_results` reads. -/
structure BenchmarkCmd where
  template : Option String
  header : Option String
  steps : List Nat
  repeatCount : Nat
  lowest_range_values : List Nat
  highest_range_values : List Nat
  execution : String
  wasm_method : String
  chain : String
  database_cache_size : Nat
deriving DecidableEq

/-- Mirrors `struct CmdData`. -/
structure CmdData where
  steps : List Nat
  repeatCount : Nat
  lowest_range_values : List Nat
  highest_range_values : List Nat
  execution : String
  wasm_execution : String
  chain : String
  db_cache : Nat
deriving DecidableEq

/-- Mirrors `struct TemplateData`; the `HashMap` of benchmarks is the
association-list model. -/
structure TemplateData where
  args : List String
  date : String
  version : String
  pallet : String
  header : String
  cmd : CmdData
  benchmarks : PalletMap

/-- The ambient effects `write_results` uses: file reads, file creation,
the Handlebars renderer (with the two custom helpers already
registered), the current date, the CLI arguments, the crate version and
the `include_str!` default template. -/
structure Env where
  readFile : String → Except IOError String
  createFile : RPath → Except IOError Unit
  render : String → TemplateData → Except String String
  now : String
  argv : List String
  version : String
  defaultTemplate : String

/-- The template selection of `write_results`: a custom template file is
read, otherwise the compiled-in default is used. -/
def loadTemplate (env : Env) (cmd : BenchmarkCmd) : Except IOError String :=
  match cmd.template with
  | some template_file => env.readFile template_file
  | none => .ok env.defaultTemplate

/-- The header selection of `write_results`: a header file is read,
otherwise the empty string is used. -/
def loadHeader (env : Env) (cmd : BenchmarkCmd) : Except IOError String :=
  match cmd.header with
  | some header_file => env.readFile header_file
  | none => .ok ("")

/-- The `CmdData` record `write_results` assembles from the command. -/
def mkCmdData (cmd : BenchmarkCmd) : CmdData :=
  { steps := cmd.steps
    repeatCount := cmd.repeatCount
    lowest_range_values := cmd.lowest_range_values
    highest_range_values := cmd.highest_range_values
    execution := cmd.execution
    wasm_execution := cmd.wasm_method
    chain := cmd.chain
    db_cache := cmd.database_cache_size }

/-- The output path for one pallet: `path` is pushed and given the `rs`
extension only when it has no file name component. -/
def outPath (path : RPath) (pallet : String) : RPath :=
  if path.fileName = none then (path.push pallet).setExtension ("rs")
  else path

/-- The `TemplateData` record `write_results` assembles for one pallet. -/
def mkTemplateData (env : Env) (cmd : BenchmarkCmd) (header : String)
    (pallet : String) (results : PalletMap) : TemplateData :=
  { args := env.argv
    date := env.now
    version := env.version
    pallet := pallet
    header := header
    cmd := mkCmdData cmd
    benchmarks := results }

/-- The `for (pallet, results) in all_results.into_iter()` loop of
`write_results`: creates each file and renders the template into it,
collecting the `(path, contents)` pairs written; renderer errors are
converted with `io_error`. -/
def writeLoop (env : Env) (cmd : BenchmarkCmd) (path : RPath)
    (template header : String) :
    AllMap → Except IOError (List (RPath × String))
  | [] => .ok []
  | (pallet, results) :: rest =>
    let file_path := outPath path pallet
    let hbs_data := mkTemplateData env cmd header pallet results
    match env.createFile file_path with
    | .error e => .error e
    | .ok _ =>
      match env.render template hbs_data with
      | .error e => .error (io_error e)
      | .ok contents =>
        match writeLoop env cmd path template header rest with
        | .error e => .error e
        | .ok files => .ok ((file_path, contents) :: files)

/-- Embedding of `write_results`.  The unreachable `panicked` outcome of
`map_results` is surfaced as an error (in the source it would abort). -/
def write_results (env : Env) (re : Regress) (cmd : BenchmarkCmd)
    (path : RPath) (batches : List BenchmarkBatch) :
    Except IOError (List (RPath × String)) :=
  match loadTemplate env cmd with
  | .error e => .error e
  | .ok template =>
    match loadHeader env cmd with
    | .error e => .error e
    | .ok header =>
      match map_results re batches with
      | .error .emptyBatches => .error (io_error ("empty batches"))
      | .error .panicked => .error (io_error ("panicked"))
      | .ok all_results => writeLoop env cmd path template header all_results

/-! Specification-side views of the regression output. -/

/-- Pairs `(slope, name)` of an analysis whose slope is non-zero, in the
order the analysis lists them (over the zip of slopes and names). -/
def nonzeroPairs (a : Analysis) : List (Nat × String) :=
  (a.slopes.zip a.names).filter (fun p => decide (p.1 ≠ 0))

/-- The non-zero pairs of an analysis as `ComponentSlope`s with the slope
saturating-multiplied by 1000. -/
def scaledSlopes (a : Analysis) : List ComponentSlope :=
  (nonzeroPairs a).map (fun p => ⟨p.2, saturatingMul1000 p.1⟩)

/-- The non-zero pairs of an analysis as `ComponentSlope`s, unscaled. -/
def rawSlopes (a : Analysis) : List ComponentSlope :=
  (nonzeroPairs a).map (fun p => ⟨p.2, p.1⟩)

/-- The fitted slope of component `n` is zero everywhere in analysis `a`
(vacuously so when `a` does not list `n`). -/
def zeroSlopeIn (a : Analysis) (n : String) : Prop :=
  ∀ p ∈ a.slopes.zip a.names, p.2 = n → p.1 = 0

instance (a : Analysis) (n : String) : Decidable (zeroSlopeIn a n) := by
  unfold zeroSlopeIn; infer_instance

/-- The three per-metric coefficient groups of a `BenchmarkData`. -/
def weightPart (d : BenchmarkData) : Nat × List ComponentSlope :=
  (d.base_weight, d.component_weight)

/-- Reads coefficient group. -/
def readsPart (d : BenchmarkData) : Nat × List ComponentSlope :=
  (d.base_reads, d.component_reads)

/-- Writes coefficient group. -/
def writesPart (d : BenchmarkData) : Nat × List ComponentSlope :=
  (d.base_writes, d.component_writes)

/-! Lemmas about `slopeLoop`. -/

theorem slopeLoop_snd (scaled : Bool) (pairs : List (Nat × String))
    (used : List String) :
    (slopeLoop scaled pairs used).2 =
      (pairs.filter (fun p => decide (p.1 ≠ 0))).map
        (fun p => ⟨p.2, if scaled then saturatingMul1000 p.1 else p.1⟩) := by
  induction pairs generalizing used with
  | nil => rfl
  | cons hd tl ih =>
    obtain ⟨slope, name⟩ := hd
    by_cases h : slope = 0
    · simp [slopeLoop, h, ih]
    · simp [slopeLoop, h, ih]

theorem slopeLoop_fst_mem (scaled : Bool) (pairs : List (Nat × String))
    (used : List String) (n : String) :
    n ∈ (slopeLoop scaled pairs used).1 ↔
      n ∈ used ∨ ∃ p ∈ pairs, p.2 = n ∧ p.1 ≠ 0 := by
  induction pairs generalizing used with
  | nil => simp [slopeLoop]
  | cons hd tl ih =>
    obtain ⟨slope, name⟩ := hd
    by_cases h : slope = 0
    · simp only [slopeLoop, if_pos h, ih, List.mem_cons]
      constructor
      · rintro (hu | ⟨p, hp, hn, hnz⟩)
        · exact Or.inl hu
        · exact Or.inr ⟨p, Or.inr hp, hn, hnz⟩
      · rintro (hu | ⟨p, (rfl | hp), hn, hnz⟩)
        · exact Or.inl hu
        · exact absurd h (by simpa [hn] using hnz)
        · exact Or.inr ⟨p, hp, hn, hnz⟩
    · simp only [slopeLoop, if_neg h]
      rw [ih]
      by_cases hm : name ∈ used
      · simp only [if_pos hm, List.mem_cons]
        constructor
        · rintro (hu | ⟨p, hp, hn, hnz⟩)
          · exact Or.inl hu
          · exact Or.inr ⟨p, Or.inr hp, hn, hnz⟩
        · rintro (hu | ⟨p, (rfl | hp), hn, hnz⟩)
          · exact Or.inl hu
          · subst hn; exact Or.inl hm
          · exact Or.inr ⟨p, hp, hn, hnz⟩
      · simp only [if_neg hm, List.mem_append, List.mem_cons, List.mem_singleton,
          List.not_mem_nil, or_false]
        constructor
        · rintro ((hu | he) | ⟨p, hp, hn, hnz⟩)
          · exact Or.inl hu
          · exact Or.inr ⟨(slope, name), Or.inl rfl, he.symm, h⟩
          · exact Or.inr ⟨p, Or.inr hp, hn, hnz⟩
        · rintro (hu | ⟨p, (rfl | hp), hn, hnz⟩)
          · exact Or.inl (Or.inl hu)
          · exact Or.inl (Or.inr hn.symm)
          · exact Or.inr ⟨p, hp, hn, hnz⟩

/-- Explicit closed form of `get_benchmark_data` on a batch with at least
one result row. -/
theorem get_benchmark_data_cons (re : Regress) (p b : String)
    (r0 : BenchmarkResults) (rs : List BenchmarkResults) :
    get_benchmark_data re ⟨p, b, r0 :: rs⟩ = some
      { name := b
        components := r0.components.map (fun nc =>
          { name := nc.1
            is_used := decide (nc.1 ∈ (slopeLoop false
              ((re (r0 :: rs) .writes).slopes.zip (re (r0 :: rs) .writes).names)
              (slopeLoop false
                ((re (r0 :: rs) .reads).slopes.zip (re (r0 :: rs) .reads).names)
                (slopeLoop true
                  ((re (r0 :: rs) .extrinsicTime).slopes.zip
                    (re (r0 :: rs) .extrinsicTime).names) []).1).1).1) })
        base_weight := saturatingMul1000 (re (r0 :: rs) .extrinsicTime).base
        base_reads := (re (r0 :: rs) .reads).base
        base_writes := (re (r0 :: rs) .writes).base
        component_weight := scaledSlopes (re (r0 :: rs) .extrinsicTime)
        component_reads := rawSlopes (re (r0 :: rs) .reads)
        component_writes := rawSlopes (re (r0 :: rs) .writes) } := by
  simp only [get_benchmark_data, get_benchmark_data_log, callRegress]
  simp only [slopeLoop_snd]
  simp [scaledSlopes, rawSlopes, nonzeroPairs]

/-- On a batch with no result rows, `get_benchmark_data` is the modelled
panic, and conversely. -/
theorem get_benchmark_data_none_iff (re : Regress) (batch : BenchmarkBatch) :
    get_benchmark_data re batch = none ↔ batch.results = [] := by
  obtain ⟨p, b, results⟩ := batch
  cases results with
  | nil => simp [get_benchmark_data, get_benchmark_data_log]
  | cons r0 rs => simp [get_benchmark_data_cons]

/-! Claims C2, C3, C6 about `get_benchmark_data`. -/

/-- C3: for every batch processed by `get_benchmark_data`, `base_weight`
equals the fitted time base saturating-multiplied by 1000 and every slope
in `component_weight` equals the corresponding fitted time slope
saturating-multiplied by 1000, while `base_reads`, `base_writes` and the
slopes in `component_reads` and `component_writes` equal the fitted
reads/writes coefficients unscaled. -/
theorem C3_time_coefficients_scaled (re : Regress) (batch : BenchmarkBatch)
    (h : batch.results ≠ []) :
    ∃ d, get_benchmark_data re batch = some d ∧
      d.base_weight = saturatingMul1000 (re batch.results .extrinsicTime).base ∧
      d.component_weight = scaledSlopes (re batch.results .extrinsicTime) ∧
      d.base_reads = (re batch.results .reads).base ∧
      d.base_writes = (re batch.results .writes).base ∧
      d.component_reads = rawSlopes (re batch.results .reads) ∧
      d.component_writes = rawSlopes (re batch.results .writes) := by
  obtain ⟨p, b, results⟩ := batch
  cases results with
  | nil => simp at h
  | cons r0 rs =>
    exact ⟨_, get_benchmark_data_cons re p b r0 rs, rfl, rfl, rfl, rfl, rfl, rfl⟩

/-- Concrete regression output used by witnesses. -/
def reW : Regress := fun _ _ => ⟨7, [2, 0], ["a", "z"]⟩

/-- Concrete batch used by witnesses. -/
def batchW : BenchmarkBatch :=
  ⟨"pallet_w", "bench_w", [⟨[("a", 1), ("z", 0)], 9, 9, 9, 0, 9, 0⟩]⟩

theorem C3_time_coefficients_scaled_witness :
    batchW.results ≠ [] ∧
    ∃ d, get_benchmark_data reW batchW = some d ∧
      d.base_weight = saturatingMul1000 (reW batchW.results .extrinsicTime).base ∧
      d.component_weight = scaledSlopes (reW batchW.results .extrinsicTime) ∧
      d.base_reads = (reW batchW.results .reads).base ∧
      d.base_writes = (reW batchW.results .writes).base ∧
      d.component_reads = rawSlopes (reW batchW.results .reads) ∧
      d.component_writes = rawSlopes (reW batchW.results .writes) :=
  ⟨by decide, C3_time_coefficients_scaled reW batchW (by decide)⟩

/-- C2 (amended): the `is_used` marking is as claimed, and the three
slope vectors are the non-zero `(name, slope)` pairs of their own
regression in regression order, except that the slopes stored in
`component_weight` are saturating-multiplied by 1000 (they are not the
raw fitted time slopes, see the counterexample). -/
theorem C2_component_filtering_amended (re : Regress) (batch : BenchmarkBatch)
    (r0 : BenchmarkResults) (rs : List BenchmarkResults)
    (h : batch.results = r0 :: rs) :
    ∃ d, get_benchmark_data re batch = some d ∧
      d.components.map Component.name = r0.components.map Prod.fst ∧
      (∀ c ∈ d.components,
        (c.is_used = false ↔
          (zeroSlopeIn (re batch.results .extrinsicTime) c.name ∧
           zeroSlopeIn (re batch.results .reads) c.name ∧
           zeroSlopeIn (re batch.results .writes) c.name))) ∧
      d.component_weight = scaledSlopes (re batch.results .extrinsicTime) ∧
      d.component_reads = rawSlopes (re batch.results .reads) ∧
      d.component_writes = rawSlopes (re batch.results .writes) := by
  obtain ⟨p, b, results⟩ := batch
  simp only [BenchmarkBatch.mk.injEq] at h
  subst h
  refine ⟨_, get_benchmark_data_cons re p b r0 rs, ?_, ?_, rfl, rfl, rfl⟩
  · simp
  · intro c hc
    simp only [List.mem_map] at hc
    obtain ⟨nc, hnc, rfl⟩ := hc
    simp only [decide_eq_false_iff_not, slopeLoop_fst_mem, List.not_mem_nil,
      false_or, zeroSlopeIn]
    push_neg
    tauto

theorem C2_component_filtering_amended_witness :
    batchW.results = batchW.results.head (by decide) :: batchW.results.tail ∧
    ∃ d, get_benchmark_data reW batchW = some d ∧
      d.components.map Component.name =
        (batchW.results.head (by decide)).components.map Prod.fst ∧
      (∀ c ∈ d.components,
        (c.is_used = false ↔
          (zeroSlopeIn (reW batchW.results .extrinsicTime) c.name ∧
           zeroSlopeIn (reW batchW.results .reads) c.name ∧
           zeroSlopeIn (reW batchW.results .writes) c.name))) ∧
      d.component_weight = scaledSlopes (reW batchW.results .extrinsicTime) ∧
      d.component_reads = rawSlopes (reW batchW.results .reads) ∧
      d.component_writes = rawSlopes (reW batchW.results .writes) :=
  ⟨rfl, C2_component_filtering_amended reW batchW _ _ rfl⟩

/-- Concrete regression output for the C2 counterexample: the fitted
time slope of component `a` is `3`. -/
def reC2 : Regress := fun _ _ => ⟨5, [3], ["a"]⟩

/-- Concrete batch for the C2 counterexample. -/
def batchC2 : BenchmarkBatch :=
  ⟨"p_c2", "n_c2", [⟨[("a", 1)], 5, 5, 5, 0, 5, 0⟩]⟩

/-- C2 counterexample: the time regression's only non-zero pair is
`("a", 3)`, but `component_weight` stores `("a", 3000)`: it does not
contain the `(name, slope)` pairs of the time regression. -/
theorem C2_component_filtering_counterexample :
    (get_benchmark_data reC2 batchC2).map BenchmarkData.component_weight =
      some [⟨"a", 3000⟩] ∧
    nonzeroPairs (reC2 batchC2.results .extrinsicTime) = [(3, "a")] ∧
    (3000 : Nat) ≠ 3 := by
  refine ⟨?_, by decide, by decide⟩
  rw [show batchC2 = ⟨"p_c2", "n_c2", [⟨[("a", 1)], 5, 5, 5, 0, 5, 0⟩]⟩ from rfl,
    get_benchmark_data_cons]
  decide

/-- C6: for every batch, `get_benchmark_data` invokes the external
regression routine exactly three times — once with the time selector,
once with the reads selector, once with the writes selector — and each
output coefficient group (weight, reads, writes) is derived solely from
the result of its own metric's regression call. -/
theorem C6_three_regression_calls (re₁ re₂ : Regress) (batch : BenchmarkBatch) :
    (get_benchmark_data_log re₁ batch).2 =
      [BenchmarkSelector.extrinsicTime, BenchmarkSelector.reads,
        BenchmarkSelector.writes] ∧
    (re₁ batch.results .extrinsicTime = re₂ batch.results .extrinsicTime →
      (get_benchmark_data re₁ batch).map weightPart =
        (get_benchmark_data re₂ batch).map weightPart) ∧
    (re₁ batch.results .reads = re₂ batch.results .reads →
      (get_benchmark_data re₁ batch).map readsPart =
        (get_benchmark_data re₂ batch).map readsPart) ∧
    (re₁ batch.results .writes = re₂ batch.results .writes →
      (get_benchmark_data re₁ batch).map writesPart =
        (get_benchmark_data re₂ batch).map writesPart) := by
  obtain ⟨p, b, results⟩ := batch
  cases results with
  | nil => exact ⟨rfl, fun _ => rfl, fun _ => rfl, fun _ => rfl⟩
  | cons r0 rs =>
    refine ⟨rfl, ?_, ?_, ?_⟩ <;> intro h <;>
      simp [get_benchmark_data_cons, weightPart, readsPart, writesPart, h]

/-- Second concrete regression for the C6 witness: agrees with `reW` on
the time selector only. -/
def reW2 : Regress := fun _ sel =>
  match sel with
  | .extrinsicTime => ⟨7, [2, 0], ["a", "z"]⟩
  | _ => ⟨11, [4], ["b"]⟩

theorem C6_three_regression_calls_witness :
    (get_benchmark_data_log reW batchW).2 =
      [BenchmarkSelector.extrinsicTime, BenchmarkSelector.reads,
        BenchmarkSelector.writes] ∧
    (get_benchmark_data reW batchW).map weightPart =
      (get_benchmark_data reW2 batchW).map weightPart :=
  ⟨(C6_three_regression_calls reW reW batchW).1,
    (C6_three_regression_calls reW reW2 batchW).2.1 rfl⟩

/-! Lemmas about the association-list map model. -/

theorem afind_ainsert {β : Type} (m : List (String × β)) (k : String) (v : β)
    (q : String) :
    afind (ainsert m k v) q = if q = k then some v else afind m q := by
  induction m with
  | nil => simp [ainsert, afind]
  | cons hd tl ih =>
    obtain ⟨k', v'⟩ := hd
    by_cases hk : k' = k
    · subst hk
      by_cases hq : q = k'
      · simp [ainsert, afind, hq]
      · simp [ainsert, afind, hq]
    · by_cases hq : q = k'
      · subst hq
        have hqk : q ≠ k := hk
        simp [ainsert, afind, hk, hqk]
      · simp [ainsert, afind, hk, hq, ih]

theorem ainsert_keys {β : Type} (m : List (String × β)) (k : String) (v : β) :
    (ainsert m k v).map Prod.fst =
      if k ∈ m.map Prod.fst then m.map Prod.fst
      else m.map Prod.fst ++ [k] := by
  induction m with
  | nil => simp [ainsert]
  | cons hd tl ih =>
    obtain ⟨k', v'⟩ := hd
    by_cases hk : k' = k
    · subst hk; simp [ainsert]
    · have hk' : ¬k = k' := fun he => hk he.symm
      by_cases hm : k ∈ tl.map Prod.fst
      · simp [ainsert, hk, ih, hm, hk']
      · simp [ainsert, hk, ih, hm, hk']

theorem ainsert_keys_nodup {β : Type} (m : List (String × β)) (k : String)
    (v : β) (h : (m.map Prod.fst).Nodup) :
    ((ainsert m k v).map Prod.fst).Nodup := by
  rw [ainsert_keys]
  by_cases hm : k ∈ m.map Prod.fst
  · simpa [hm] using h
  · rw [if_neg hm]
    refine List.Nodup.append h (List.nodup_singleton k) ?_
    intro a ha hb
    simp only [List.mem_singleton] at hb
    subst hb
    exact hm ha

theorem afind_none_of_not_mem_keys {β : Type} (m : List (String × β))
    (q : String) (h : q ∉ m.map Prod.fst) : afind m q = none := by
  induction m with
  | nil => rfl
  | cons hd tl ih =>
    obtain ⟨k', v'⟩ := hd
    simp only [List.map_cons, List.mem_cons] at h
    push_neg at h
    simp [afind, h.1, ih h.2]

theorem afind_isSome_mem_keys {β : Type} (m : List (String × β)) (q : String)
    (h : (afind m q).isSome) : q ∈ m.map Prod.fst := by
  by_contra hq
  rw [afind_none_of_not_mem_keys m q hq] at h
  simp at h

/-! Lemmas about `map_results_go`. -/

/-- The loop of `map_results` never fails: in particular the modelled
`batch.results[0]` panic of `get_benchmark_data` is unreachable, because
the loop skips every batch whose results are empty. -/
theorem map_results_go_ok (re : Regress) :
    ∀ (bs : List BenchmarkBatch) (pm : PalletMap) (all : AllMap),
      ∃ m, map_results_go re bs pm all = .ok m := by
  intro bs
  induction bs with
  | nil => exact fun pm all => ⟨all, rfl⟩
  | cons b rest ih =>
    intro pm all
    by_cases hb : b.results.isEmpty
    · simpa [map_results_go, hb] using ih pm all
    · have hne : b.results ≠ [] := by simpa [List.isEmpty_iff] using hb
      obtain ⟨bd, hbd⟩ : ∃ bd, get_benchmark_data re b = some bd := by
        cases hg : get_benchmark_data re b with
        | none => exact absurd ((get_benchmark_data_none_iff re b).1 hg) hne
        | some bd => exact ⟨bd, rfl⟩
      cases rest with
      | nil =>
        refine ⟨ainsert all b.pallet (ainsert pm b.benchmark bd), ?_⟩
        simp [map_results_go, hb, hbd]
      | cons nxt rest' =>
        by_cases hp : nxt.pallet = b.pallet
        · simpa [map_results_go, hb, hbd, hp] using ih _ all
        · simpa [map_results_go, hb, hbd, hp] using ih _ _

/-- Provenance of the entries of the map the loop builds: every inner
entry comes from a batch with non-empty results processed by the loop,
or from the accumulators. -/
theorem map_results_go_entries (re : Regress) :
    ∀ (bs : List BenchmarkBatch) (pm : PalletMap) (all : AllMap) (m : AllMap),
      map_results_go re bs pm all = .ok m →
      ∀ (p q : String) (d : BenchmarkData),
        (afind m p).bind (fun inner => afind inner q) = some d →
        (∃ b ∈ bs, b.results ≠ [] ∧ b.benchmark = q ∧
          get_benchmark_data re b = some d) ∨
        (∃ inner, afind all p = some inner ∧ afind inner q = some d) ∨
        afind pm q = some d := by
  intro bs
  induction bs with
  | nil =>
    intro pm all m hm p q d hd
    simp only [map_results_go, Except.ok.injEq] at hm
    subst hm
    cases ha : afind all p with
    | none => simp [ha] at hd
    | some inner =>
      rw [ha] at hd
      exact Or.inr (Or.inl ⟨inner, rfl, by simpa using hd⟩)
  | cons b rest ih =>
    intro pm all m hm p q d hd
    by_cases hb : b.results.isEmpty
    · rw [map_results_go, if_pos hb] at hm
      rcases ih pm all m hm p q d hd with ⟨b', hb', hr⟩ | hrest
      · exact Or.inl ⟨b', List.mem_cons_of_mem b hb', hr⟩
      · exact Or.inr hrest
    · have hne : b.results ≠ [] := by simpa [List.isEmpty_iff] using hb
      obtain ⟨bd, hbd⟩ : ∃ bd, get_benchmark_data re b = some bd := by
        cases hg : get_benchmark_data re b with
        | none => exact absurd ((get_benchmark_data_none_iff re b).1 hg) hne
        | some bd => exact ⟨bd, rfl⟩
      cases rest with
      | nil =>
        simp only [map_results_go, if_neg hb, hbd, Except.ok.injEq] at hm
        subst hm
        rw [Option.bind_eq_some] at hd
        obtain ⟨inner, hfind, hinner⟩ := hd
        rw [afind_ainsert] at hfind
        by_cases hp : p = b.pallet
        · rw [if_pos hp] at hfind
          obtain rfl := Option.some_inj.1 hfind
          rw [afind_ainsert] at hinner
          by_cases hq : q = b.benchmark
          · rw [if_pos hq] at hinner
            refine Or.inl ⟨b, List.mem_cons_self b [], hne, hq.symm, ?_⟩
            rw [hbd, hinner]
          · rw [if_neg hq] at hinner
            exact Or.inr (Or.inr hinner)
        · rw [if_neg hp] at hfind
          exact Or.inr (Or.inl ⟨inner, hfind, hinner⟩)
      | cons nxt rest' =>
        simp only [map_results_go, if_neg hb, hbd] at hm
        by_cases hp : nxt.pallet = b.pallet
        · rw [if_pos hp] at hm
          rcases ih _ all m hm p q d hd with ⟨b', hb', hr⟩ | hacc | hpm
          · exact Or.inl ⟨b', List.mem_cons_of_mem b hb', hr⟩
          · exact Or.inr (Or.inl hacc)
          · rw [afind_ainsert] at hpm
            by_cases hq : q = b.benchmark
            · rw [if_pos hq] at hpm
              refine Or.inl ⟨b, List.mem_cons_self b _, hne, hq.symm, ?_⟩
              rw [hbd, hpm]
            · rw [if_neg hq] at hpm
              exact Or.inr (Or.inr hpm)
        · rw [if_neg hp] at hm
          rcases ih _ _ m hm p q d hd with ⟨b', hb', hr⟩ | hacc | hpm
          · exact Or.inl ⟨b', List.mem_cons_of_mem b hb', hr⟩
          · obtain ⟨inner, hfind, hinner⟩ := hacc
            rw [afind_ainsert] at hfind
            by_cases hpp : p = b.pallet
            · rw [if_pos hpp] at hfind
              obtain rfl := Option.some_inj.1 hfind
              rw [afind_ainsert] at hinner
              by_cases hq : q = b.benchmark
              · rw [if_pos hq] at hinner
                refine Or.inl ⟨b, List.mem_cons_self b _, hne, hq.symm, ?_⟩
                rw [hbd, hinner]
              · rw [if_neg hq] at hinner
                exact Or.inr (Or.inr hinner)
            · rw [if_neg hpp] at hfind
              exact Or.inr (Or.inl ⟨inner, hfind, hinner⟩)
          · simp [afind] at hpm

/-! Lemmas about `runsOf` (the contiguity measure). -/

theorem mem_runsOf (l : List String) (x : String) : x ∈ runsOf l ↔ x ∈ l := by
  induction l with
  | nil => simp [runsOf]
  | cons p tail ih =>
    cases tail with
    | nil => simp [runsOf]
    | cons q rest =>
      by_cases h : p = q
      · subst h
        rw [runsOf, if_pos rfl, ih]
        simp only [List.mem_cons]
        tauto
      · rw [runsOf, if_neg h]
        simp only [List.mem_cons, ih]

theorem runsOf_run_cons (p : String) :
    ∀ (ps qs : List String), ps ≠ [] → (∀ a ∈ ps, a = p) →
      (∀ h, qs.head? = some h → h ≠ p) →
      runsOf (ps ++ qs) = p :: runsOf qs := by
  intro ps
  induction ps with
  | nil => intro qs h; exact absurd rfl h
  | cons a ps' ih =>
    intro qs _ hall hq
    have ha : a = p := hall a (List.mem_cons_self a ps')
    cases ps' with
    | nil =>
      cases qs with
      | nil => simp [runsOf, ha]
      | cons h t =>
        have hne : ¬a = h := fun he => (hq h rfl) (he.symm.trans ha)
        rw [List.singleton_append, runsOf, if_neg hne, ha]
    | cons a2 ps'' =>
      have ha2 : a2 = a :=
        (hall a2 (List.mem_cons_of_mem a (List.mem_cons_self a2 ps''))).trans ha.symm
      rw [List.cons_append, List.cons_append, runsOf, if_pos ha2.symm,
        ← List.cons_append]
      exact ih qs (by simp) (fun x hx => hall x (List.mem_cons_of_mem a hx)) hq

/-! Step-unfolding lemmas for the `map_results` loop on a batch with
non-empty results. -/

theorem map_results_go_step_last (re : Regress) (b : BenchmarkBatch)
    (pm : PalletMap) (all : AllMap) (bd : BenchmarkData)
    (hres : b.results.isEmpty = false)
    (hbd : get_benchmark_data re b = some bd) :
    map_results_go re [b] pm all =
      .ok (ainsert all b.pallet (ainsert pm b.benchmark bd)) := by
  simp [map_results_go, hres, hbd]

theorem map_results_go_step_mid (re : Regress) (b nxt : BenchmarkBatch)
    (rest : List BenchmarkBatch) (pm : PalletMap) (all : AllMap)
    (bd : BenchmarkData) (hres : b.results.isEmpty = false)
    (hbd : get_benchmark_data re b = some bd) :
    map_results_go re (b :: nxt :: rest) pm all =
      if nxt.pallet = b.pallet then
        map_results_go re (nxt :: rest) (ainsert pm b.benchmark bd) all
      else
        map_results_go re (nxt :: rest) []
          (ainsert all b.pallet (ainsert pm b.benchmark bd)) := by
  simp [map_results_go, hres, hbd]

/-! The run lemma: processing one maximal contiguous run of a pallet. -/

theorem map_results_go_run (re : Regress) (p : String) :
    ∀ (ys zs : List BenchmarkBatch) (pm : PalletMap) (all : AllMap),
      ys ≠ [] →
      (∀ y ∈ ys, y.results ≠ []) →
      (∀ y ∈ ys, y.pallet = p) →
      (∀ z, zs.head? = some z → z.pallet ≠ p) →
      map_results_go re (ys ++ zs) pm all =
        map_results_go re zs [] (ainsert all p (ys.foldl (insStep re) pm)) := by
  intro ys
  induction ys with
  | nil => intro zs pm all h; exact absurd rfl h
  | cons y ys' ih =>
    intro zs pm all _ hres hpal hz
    have hyres : y.results ≠ [] := hres y (List.mem_cons_self y ys')
    have hyempty : y.results.isEmpty = false := by
      simpa [List.isEmpty_iff] using hyres
    obtain ⟨bd, hbd⟩ : ∃ bd, get_benchmark_data re y = some bd := by
      cases hg : get_benchmark_data re y with
      | none => exact absurd ((get_benchmark_data_none_iff re y).1 hg) hyres
      | some bd => exact ⟨bd, rfl⟩
    have hyp : y.pallet = p := hpal y (List.mem_cons_self y ys')
    have hstep : insStep re pm y = ainsert pm y.benchmark bd := by
      simp [insStep, hbd]
    cases ys' with
    | nil =>
      cases zs with
      | nil =>
        rw [List.append_nil, map_results_go_step_last re y pm all bd hyempty hbd,
          List.foldl_cons, List.foldl_nil, hstep, hyp]
        rfl
      | cons z zs' =>
        have hzp : z.pallet ≠ p := hz z rfl
        have hzy : ¬(z.pallet = y.pallet) := fun he => hzp (hyp ▸ he)
        rw [List.singleton_append,
          map_results_go_step_mid re y z zs' pm all bd hyempty hbd, if_neg hzy,
          List.foldl_cons, List.foldl_nil, hstep, hyp]
    | cons y2 ys'' =>
      have hy2 : y2.pallet = p :=
        hpal y2 (List.mem_cons_of_mem y (List.mem_cons_self y2 ys''))
      have heq : y2.pallet = y.pallet := by rw [hy2, hyp]
      have hrec := ih zs (ainsert pm y.benchmark bd) all (by simp)
        (fun x hx => hres x (List.mem_cons_of_mem y hx))
        (fun x hx => hpal x (List.mem_cons_of_mem y hx)) hz
      calc map_results_go re ((y :: y2 :: ys'') ++ zs) pm all
          = map_results_go re ((y2 :: ys'') ++ zs) (ainsert pm y.benchmark bd) all := by
            rw [List.cons_append, List.cons_append,
              map_results_go_step_mid re y y2 (ys'' ++ zs) pm all bd hyempty hbd,
              if_pos heq]
        _ = map_results_go re zs []
              (ainsert all p ((y2 :: ys'').foldl (insStep re) (ainsert pm y.benchmark bd))) :=
            hrec
        _ = map_results_go re zs []
              (ainsert all p ((y :: y2 :: ys'').foldl (insStep re) pm)) := by
            conv_rhs => rw [List.foldl_cons, hstep]

/-! Full characterisation of the loop on contiguously grouped batches
with non-empty results. -/

theorem map_results_go_full (re : Regress) :
    ∀ (n : Nat) (bs : List BenchmarkBatch), bs.length ≤ n →
      ∀ (all : AllMap),
      (∀ b ∈ bs, b.results ≠ []) →
      (runsOf (bs.map BenchmarkBatch.pallet)).Nodup →
      ∃ m, map_results_go re bs [] all = .ok m ∧
        (∀ p, p ∉ bs.map BenchmarkBatch.pallet → afind m p = afind all p) ∧
        (∀ p, p ∈ bs.map BenchmarkBatch.pallet →
          afind m p =
            some (buildRun re (bs.filter (fun b => decide (b.pallet = p))))) := by
  intro n
  induction n with
  | zero =>
    intro bs hlen all _ _
    have hnil : bs = [] := List.eq_nil_of_length_eq_zero (Nat.le_zero.1 hlen)
    subst hnil
    exact ⟨all, rfl, fun p _ => rfl, fun p hp => absurd hp (by simp)⟩
  | succ n ih =>
    intro bs hlen all hres hnodup
    cases hbs : bs with
    | nil => exact ⟨all, rfl, fun p _ => rfl, fun p hp => absurd hp (by simp)⟩
    | cons y bs' =>
      subst hbs
      set pr : BenchmarkBatch → Bool := fun b => decide (b.pallet = y.pallet) with hpr
      set ys : List BenchmarkBatch := (y :: bs').takeWhile pr with hys
      set zs : List BenchmarkBatch := (y :: bs').dropWhile pr with hzs
      have hsplit : ys ++ zs = y :: bs' :=
        List.takeWhile_append_dropWhile pr (y :: bs')
      have hys_ne : ys ≠ [] := by
        rw [hys, List.takeWhile_cons_of_pos (by simp [hpr])]
        simp
      have hys_all : ∀ x ∈ ys, x.pallet = y.pallet := by
        intro x hx
        have := List.mem_takeWhile_imp (hys ▸ hx)
        simpa [hpr] using this
      have hz_head : ∀ z, zs.head? = some z → z.pallet ≠ y.pallet := by
        intro z hz
        have := List.head?_dropWhile_not pr (y :: bs')
        rw [← hzs, hz] at this
        simpa [hpr] using this
      have hzs_tail : zs = bs'.dropWhile pr := by
        rw [hzs, List.dropWhile_cons_of_pos (by simp [hpr])]
      have hlen' : zs.length ≤ n := by
        have h1 : zs.length ≤ bs'.length := by
          rw [hzs_tail]
          exact List.Sublist.length_le (List.dropWhile_sublist _)
        have h2 : bs'.length ≤ n := by simpa using hlen
        exact Nat.le_trans h1 h2
      have hruns : runsOf ((y :: bs').map BenchmarkBatch.pallet) =
          y.pallet :: runsOf (zs.map BenchmarkBatch.pallet) := by
        rw [← hsplit, List.map_append]
        refine runsOf_run_cons y.pallet _ _ ?_ ?_ ?_
        · simpa using hys_ne
        · intro a ha
          obtain ⟨x, hx, rfl⟩ := List.mem_map.1 ha
          exact hys_all x hx
        · intro h hh
          rw [List.head?_map] at hh
          cases hhead : zs.head? with
          | none => rw [hhead] at hh; cases hh
          | some z =>
            rw [hhead] at hh
            obtain rfl : z.pallet = h := by simpa using hh
            exact hz_head z hhead
      have hnodup' : (runsOf (zs.map BenchmarkBatch.pallet)).Nodup := by
        rw [hruns] at hnodup
        exact (List.nodup_cons.1 hnodup).2
      have hynotzs : y.pallet ∉ zs.map BenchmarkBatch.pallet := by
        rw [hruns] at hnodup
        intro hm
        exact (List.nodup_cons.1 hnodup).1 ((mem_runsOf _ _).2 hm)
      have hzres : ∀ b ∈ zs, b.results ≠ [] := by
        intro b hb
        refine hres b ?_
        rw [← hsplit]
        exact List.mem_append_right ys hb
      obtain ⟨m, hgo, hout, hin⟩ := ih zs hlen'
        (ainsert all y.pallet (buildRun re ys)) hzres hnodup'
      have hchain : map_results_go re (y :: bs') [] all = .ok m := by
        rw [← hsplit,
          map_results_go_run re y.pallet ys zs [] all hys_ne
            (fun x hx => hres x (by rw [← hsplit]; exact List.mem_append_left zs hx))
            hys_all hz_head]
        exact hgo
      refine ⟨m, hchain, ?_, ?_⟩
      · intro p hp
        have hpy : p ≠ y.pallet := by
          intro he
          exact hp (by simp [he])
        have hpz : p ∉ zs.map BenchmarkBatch.pallet := by
          intro hm
          refine hp ?_
          rw [← hsplit, List.map_append]
          exact List.mem_append_right _ hm
        rw [hout p hpz, afind_ainsert, if_neg hpy]
      · intro p hp
        by_cases hpy : p = y.pallet
        · rw [hout p (by rw [hpy]; exact hynotzs), afind_ainsert, if_pos hpy]
          have hfil : (y :: bs').filter (fun b => decide (b.pallet = p)) = ys := by
            rw [← hsplit, List.filter_append]
            have h1 : ys.filter (fun b => decide (b.pallet = p)) = ys :=
              List.filter_eq_self.2 (fun a ha => by
                simpa [hpy] using hys_all a ha)
            have h2 : zs.filter (fun b => decide (b.pallet = p)) = [] :=
              List.filter_eq_nil_iff.2 (fun a ha hpa => by
                refine hynotzs ?_
                have hap : a.pallet = p := by simpa using hpa
                rw [← hpy, ← hap]
                exact List.mem_map_of_mem BenchmarkBatch.pallet ha)
            rw [h1, h2, List.append_nil]
          rw [hfil]
        · have hpzs : p ∈ zs.map BenchmarkBatch.pallet := by
            rcases List.mem_map.1 hp with ⟨x, hx, rfl⟩
            rw [← hsplit] at hx
            rcases List.mem_append.1 hx with hx1 | hx2
            · exact absurd (hys_all x hx1) hpy
            · exact List.mem_map_of_mem BenchmarkBatch.pallet hx2
          rw [hin p hpzs]
          have hfil : (y :: bs').filter (fun b => decide (b.pallet = p)) =
              zs.filter (fun b => decide (b.pallet = p)) := by
            rw [← hsplit, List.filter_append]
            have h1 : ys.filter (fun b => decide (b.pallet = p)) = [] :=
              List.filter_eq_nil_iff.2 (fun a ha hpa => by
                refine hpy ?_
                have : a.pallet = p := by simpa using hpa
                rw [← this, hys_all a ha])
            rw [h1, List.nil_append]
          rw [hfil]

/-! Lookup in the inner map a run builds. -/

theorem afind_foldl_insStep_of_not_mem (re : Regress) :
    ∀ (ys : List BenchmarkBatch) (acc : PalletMap) (q : String),
      (∀ y ∈ ys, y.benchmark ≠ q) →
      afind (ys.foldl (insStep re) acc) q = afind acc q := by
  intro ys
  induction ys with
  | nil => intro acc q _; rfl
  | cons y ys' ih =>
    intro acc q h
    rw [List.foldl_cons, ih _ q (fun x hx => h x (List.mem_cons_of_mem y hx))]
    cases hg : get_benchmark_data re y with
    | none => simp [insStep, hg]
    | some d =>
      simp only [insStep, hg]
      rw [afind_ainsert,
        if_neg (fun he => h y (List.mem_cons_self y ys') he.symm)]

theorem afind_buildRun_self (re : Regress) :
    ∀ (ys : List BenchmarkBatch) (acc : PalletMap) (y : BenchmarkBatch)
      (d : BenchmarkData), y ∈ ys →
      (ys.map BenchmarkBatch.benchmark).Nodup →
      get_benchmark_data re y = some d →
      afind (ys.foldl (insStep re) acc) y.benchmark = some d := by
  intro ys
  induction ys with
  | nil => intro acc y d hy; cases hy
  | cons y0 ys' ih =>
    intro acc y d hy hnd hd
    rw [List.foldl_cons]
    rcases List.mem_cons.1 hy with rfl | hy'
    · have hnot : ∀ x ∈ ys', x.benchmark ≠ y.benchmark := by
        intro x hx he
        refine (List.nodup_cons.1 hnd).1 ?_
        rw [← he]
        exact List.mem_map_of_mem BenchmarkBatch.benchmark hx
      rw [afind_foldl_insStep_of_not_mem re ys' _ _ hnot]
      simp only [insStep, hd]
      rw [afind_ainsert, if_pos rfl]
    · exact ih _ y d hy' (List.nodup_cons.1 hnd).2 hd

theorem afind_buildRun_isSome (re : Regress) (ys : List BenchmarkBatch)
    (q : String) (h : (afind (buildRun re ys) q).isSome) :
    q ∈ ys.map BenchmarkBatch.benchmark := by
  by_contra hq
  have hnot : ∀ y ∈ ys, y.benchmark ≠ q := by
    intro y hy he
    exact hq (he ▸ List.mem_map_of_mem BenchmarkBatch.benchmark hy)
  rw [buildRun, afind_foldl_insStep_of_not_mem re ys [] q hnot] at h
  simp [afind] at h

/-- Within a pallet's batches, distinct `(pallet, benchmark)` pairs give
distinct benchmark names. -/
theorem benchmarks_nodup_of_pairs_nodup :
    ∀ (l : List BenchmarkBatch) (p : String),
      (l.map (fun b => (b.pallet, b.benchmark))).Nodup →
      ((l.filter (fun b => decide (b.pallet = p))).map
        BenchmarkBatch.benchmark).Nodup := by
  intro l p
  induction l with
  | nil => intro _; simp
  | cons b l' ih =>
    intro h
    rw [List.filter_cons]
    by_cases hb : b.pallet = p
    · rw [if_pos (by simpa using hb), List.map_cons]
      refine List.nodup_cons.2 ⟨?_, ih (List.nodup_cons.1 h).2⟩
      intro hmem
      obtain ⟨x, hx, he⟩ := List.mem_map.1 hmem
      have hxf := List.mem_filter.1 hx
      have hxp : x.pallet = p := by simpa using hxf.2
      refine (List.nodup_cons.1 h).1 ?_
      have hpair : (fun c => (c.pallet, c.benchmark)) x = (b.pallet, b.benchmark) := by
        simp only [Prod.mk.injEq]
        exact ⟨hxp.trans hb.symm, he⟩
      have hmm := List.mem_map_of_mem
        (fun c : BenchmarkBatch => (c.pallet, c.benchmark)) hxf.1
      rw [hpair] at hmm
      simpa using hmm
    · rw [if_neg (by simpa using hb)]
      exact ih (List.nodup_cons.1 h).2

/-! Claims C1, C9, C10 about `map_results`. -/

/-- C9: every batch whose results list is empty is skipped by
`map_results` and contributes no entry to the returned map: every inner
entry of the map is `get_benchmark_data` of a batch with non-empty
results, so the `batch.results[0]` access inside `get_benchmark_data`
(modelled as the `panicked` outcome) is never reached. -/
theorem C9_empty_results_skipped (re : Regress) (batches : List BenchmarkBatch)
    (h : batches ≠ []) :
    map_results re batches ≠ .error .panicked ∧
    ∃ m, map_results re batches = .ok m ∧
      ∀ (p : String) (inner : PalletMap) (q : String) (d : BenchmarkData),
        afind m p = some inner → afind inner q = some d →
        ∃ b ∈ batches, b.results ≠ [] ∧ b.benchmark = q ∧
          get_benchmark_data re b = some d := by
  have hne : ¬batches.isEmpty := by simpa [List.isEmpty_iff] using h
  obtain ⟨m, hm⟩ := map_results_go_ok re batches [] []
  have hmr : map_results re batches = .ok m := by
    rw [map_results, if_neg hne]
    exact hm
  refine ⟨?_, m, hmr, ?_⟩
  · rw [hmr]
    intro hc
    cases hc
  intro p inner q d hfind hinner
  have hchain : (afind m p).bind (fun inner => afind inner q) = some d := by
    rw [hfind]
    exact hinner
  rcases map_results_go_entries re batches [] [] m hm p q d hchain with
    hsrc | ⟨inner', hi, _⟩ | hpm
  · exact hsrc
  · simp [afind] at hi
  · simp [afind] at hpm

/-- Batches with an empty-results batch used by the C9 witness. -/
def batchE : BenchmarkBatch := ⟨"pallet_w", "bench_e", []⟩

theorem C9_empty_results_skipped_witness :
    map_results reW [batchW, batchE] ≠ .error .panicked ∧
    ∃ m, map_results reW [batchW, batchE] = .ok m ∧
      ∀ (p : String) (inner : PalletMap) (q : String) (d : BenchmarkData),
        afind m p = some inner → afind inner q = some d →
        ∃ b ∈ [batchW, batchE], b.results ≠ [] ∧ b.benchmark = q ∧
          get_benchmark_data reW b = some d :=
  C9_empty_results_skipped reW [batchW, batchE] (by decide)

/-- C1 (amended): on a non-empty sequence of batches in which batches of
the same pallet are contiguous, every batch has non-empty results, and
no two batches share both pallet and benchmark name, `map_results`
returns `Ok` of exactly the claimed two-level map. -/
theorem C1_grouping_amended (re : Regress) (batches : List BenchmarkBatch)
    (h0 : batches ≠ [])
    (h1 : ∀ b ∈ batches, b.results ≠ [])
    (h2 : (runsOf (batches.map BenchmarkBatch.pallet)).Nodup)
    (h3 : (batches.map (fun b => (b.pallet, b.benchmark))).Nodup) :
    ∃ m, map_results re batches = .ok m ∧
      (∀ b ∈ batches, ∃ inner, afind m b.pallet = some inner ∧
        afind inner b.benchmark = get_benchmark_data re b) ∧
      (∀ p, (afind m p).isSome → p ∈ batches.map BenchmarkBatch.pallet) ∧
      (∀ p inner q, afind m p = some inner → (afind inner q).isSome →
        ∃ b ∈ batches, b.pallet = p ∧ b.benchmark = q) := by
  have hne : ¬batches.isEmpty := by simpa [List.isEmpty_iff] using h0
  obtain ⟨m, hgo, hout, hin⟩ :=
    map_results_go_full re batches.length batches (Nat.le_refl _) [] h1 h2
  have hmr : map_results re batches = .ok m := by
    rw [map_results, if_neg hne]
    exact hgo
  refine ⟨m, hmr, ?_, ?_, ?_⟩
  · intro b hb
    have hpmem : b.pallet ∈ batches.map BenchmarkBatch.pallet :=
      List.mem_map_of_mem BenchmarkBatch.pallet hb
    refine ⟨buildRun re (batches.filter (fun c => decide (c.pallet = b.pallet))),
      hin b.pallet hpmem, ?_⟩
    obtain ⟨d, hd⟩ : ∃ d, get_benchmark_data re b = some d := by
      cases hg : get_benchmark_data re b with
      | none => exact absurd ((get_benchmark_data_none_iff re b).1 hg) (h1 b hb)
      | some d => exact ⟨d, rfl⟩
    rw [hd, buildRun]
    exact afind_buildRun_self re _ [] b d
      (List.mem_filter.2 ⟨hb, by simp⟩)
      (benchmarks_nodup_of_pairs_nodup batches b.pallet h3) hd
  · intro p hp
    by_contra hmem
    rw [hout p hmem] at hp
    simp [afind] at hp
  · intro p inner q hfind hq
    have hpmem : p ∈ batches.map BenchmarkBatch.pallet := by
      by_contra hmem
      rw [hout p hmem] at hfind
      simp [afind] at hfind
    rw [hin p hpmem] at hfind
    obtain rfl := Option.some_inj.1 hfind
    have hqmem := afind_buildRun_isSome re _ q hq
    obtain ⟨b, hbf, rfl⟩ := List.mem_map.1 hqmem
    have hbf' := List.mem_filter.1 hbf
    exact ⟨b, hbf'.1, by simpa using hbf'.2, rfl⟩

/-- Second witness batch, same pallet as `batchW`, distinct benchmark. -/
def batchW2 : BenchmarkBatch :=
  ⟨"pallet_w", "bench_w2", [⟨[("a", 2)], 4, 4, 4, 0, 4, 0⟩]⟩

theorem C1_grouping_amended_witness :
    ([batchW, batchW2] ≠ ([] : List BenchmarkBatch)) ∧
    (∀ b ∈ [batchW, batchW2], b.results ≠ []) ∧
    (runsOf ([batchW, batchW2].map BenchmarkBatch.pallet)).Nodup ∧
    ([batchW, batchW2].map (fun b => (b.pallet, b.benchmark))).Nodup ∧
    ∃ m, map_results reW [batchW, batchW2] = .ok m ∧
      (∀ b ∈ [batchW, batchW2], ∃ inner, afind m b.pallet = some inner ∧
        afind inner b.benchmark = get_benchmark_data reW b) ∧
      (∀ p, (afind m p).isSome → p ∈ [batchW, batchW2].map BenchmarkBatch.pallet) ∧
      (∀ p inner q, afind m p = some inner → (afind inner q).isSome →
        ∃ b ∈ [batchW, batchW2], b.pallet = p ∧ b.benchmark = q) :=
  ⟨by decide, by decide, by decide, by decide,
    C1_grouping_amended reW [batchW, batchW2] (by decide) (by decide)
      (by decide) (by decide)⟩

/-- A sample measurement row used by counterexamples. -/
def row0 : BenchmarkResults := ⟨[("a", 1)], 5, 5, 5, 0, 5, 0⟩

/-- A regression whose output depends on the measurement rows (its base
is the number of rows), used to distinguish batches. -/
def reLen : Regress := fun rs _ => ⟨rs.length, [], []⟩

/-- C1 counterexample, first input: contiguous pallets, but the second
batch has empty results and is last, so the pending `pallet_map` holding
the first batch is never flushed. -/
def c1a1 : BenchmarkBatch := ⟨"p_a", "x", [row0]⟩

/-- Second batch of the first C1 counterexample input. -/
def c1a2 : BenchmarkBatch := ⟨"p_a", "y", []⟩

/-- C1 counterexample, second input: two batches sharing pallet and
benchmark name but with different results. -/
def c1b1 : BenchmarkBatch := ⟨"p_b", "x", [row0]⟩

/-- Second batch of the second C1 counterexample input. -/
def c1b2 : BenchmarkBatch := ⟨"p_b", "x", [row0, row0]⟩

/-- C1 counterexample.  First input: `[c1a1, c1a2]` is non-empty, its
pallets are contiguous, and `c1a1` has non-empty results, yet the
returned map is empty — it does not contain `c1a1`'s pallet at all.
Second input: `[c1b1, c1b2]` is non-empty and contiguous, both batches
have non-empty results, and the map binds the shared benchmark name to
`get_benchmark_data` of the second batch, which differs from
`get_benchmark_data` of the first — so the map entry is not
`get_benchmark_data` of *that* batch for `c1b1`. -/
theorem C1_grouping_counterexample :
    ((map_results reW [c1a1, c1a2]).toOption = some [] ∧
      c1a1.results ≠ [] ∧
      (runsOf ([c1a1, c1a2].map BenchmarkBatch.pallet)).Nodup) ∧
    ((map_results reLen [c1b1, c1b2]).toOption.bind
        (fun m => (afind m ("p_b")).bind (fun inner => afind inner ("x"))) =
      get_benchmark_data reLen c1b2 ∧
      get_benchmark_data reLen c1b2 ≠ get_benchmark_data reLen c1b1 ∧
      (runsOf ([c1b1, c1b2].map BenchmarkBatch.pallet)).Nodup ∧
      (∀ b ∈ [c1b1, c1b2], b.results ≠ [])) := by
  refine ⟨⟨?_, by decide, by decide⟩, ⟨?_, ?_, by decide, by decide⟩⟩
  · decide
  · decide
  · decide

/-! The prefix lemma: batches before a pallet-boundary are fully flushed
before the loop reaches the suffix. -/

theorem map_results_go_prefix (re : Regress) :
    ∀ (xs ts : List BenchmarkBatch) (pm : PalletMap) (all : AllMap),
      xs ≠ [] → ts ≠ [] →
      (∀ x ∈ xs, x.results ≠ []) →
      (∀ l h, xs.getLast? = some l → ts.head? = some h → l.pallet ≠ h.pallet) →
      ∃ all', map_results_go re (xs ++ ts) pm all =
        map_results_go re ts [] all' := by
  intro xs
  induction xs with
  | nil => intro ts pm all h; exact absurd rfl h
  | cons x xs' ih =>
    intro ts pm all _ hts hres hlast
    have hxres : x.results ≠ [] := hres x (List.mem_cons_self x xs')
    have hxempty : x.results.isEmpty = false := by
      simpa [List.isEmpty_iff] using hxres
    obtain ⟨bd, hbd⟩ : ∃ bd, get_benchmark_data re x = some bd := by
      cases hg : get_benchmark_data re x with
      | none => exact absurd ((get_benchmark_data_none_iff re x).1 hg) hxres
      | some bd => exact ⟨bd, rfl⟩
    cases xs' with
    | nil =>
      cases ts with
      | nil => exact absurd rfl hts
      | cons t ts' =>
        have hxt : x.pallet ≠ t.pallet := hlast x t rfl rfl
        have hnt : ¬(t.pallet = x.pallet) := fun he => hxt he.symm
        refine ⟨ainsert all x.pallet (ainsert pm x.benchmark bd), ?_⟩
        rw [List.singleton_append,
          map_results_go_step_mid re x t ts' pm all bd hxempty hbd, if_neg hnt]
    | cons x2 xs'' =>
      have hlast' : ∀ l h, (x2 :: xs'').getLast? = some l → ts.head? = some h →
          l.pallet ≠ h.pallet := by
        intro l h hl hh
        refine hlast l h ?_ hh
        rw [List.getLast?_cons_cons]
        exact hl
      have hres' : ∀ b ∈ x2 :: xs'', b.results ≠ [] :=
        fun b hb => hres b (List.mem_cons_of_mem x hb)
      rw [List.cons_append, List.cons_append,
        map_results_go_step_mid re x x2 (xs'' ++ ts) pm all bd hxempty hbd]
      by_cases hp : x2.pallet = x.pallet
      · rw [if_pos hp, ← List.cons_append]
        exact ih ts (ainsert pm x.benchmark bd) all (by simp) hts hres' hlast'
      · rw [if_neg hp, ← List.cons_append]
        exact ih ts [] (ainsert all x.pallet (ainsert pm x.benchmark bd))
          (by simp) hts hres' hlast'

/-- Processing batches none of which belong to pallet `p` leaves the
map's entry for `p` untouched. -/
theorem map_results_go_afind_frame (re : Regress) (p : String) :
    ∀ (bs : List BenchmarkBatch) (pm : PalletMap) (all m : AllMap),
      map_results_go re bs pm all = .ok m →
      (∀ b ∈ bs, b.pallet ≠ p) →
      afind m p = afind all p := by
  intro bs
  induction bs with
  | nil =>
    intro pm all m hm _
    obtain rfl : all = m := by simpa [map_results_go] using hm
    rfl
  | cons b rest ih =>
    intro pm all m hm hb
    by_cases hbe : b.results.isEmpty
    · rw [map_results_go, if_pos hbe] at hm
      exact ih pm all m hm (fun x hx => hb x (List.mem_cons_of_mem b hx))
    · have hne : b.results ≠ [] := by simpa [List.isEmpty_iff] using hbe
      obtain ⟨bd, hbd⟩ : ∃ bd, get_benchmark_data re b = some bd := by
        cases hg : get_benchmark_data re b with
        | none => exact absurd ((get_benchmark_data_none_iff re b).1 hg) hne
        | some bd => exact ⟨bd, rfl⟩
      have hbp : b.pallet ≠ p := hb b (List.mem_cons_self b rest)
      cases rest with
      | nil =>
        simp only [map_results_go, if_neg hbe, hbd, Except.ok.injEq] at hm
        subst hm
        rw [afind_ainsert, if_neg (fun he => hbp he.symm)]
      | cons nxt rest' =>
        simp only [map_results_go, if_neg hbe, hbd] at hm
        by_cases hp2 : nxt.pallet = b.pallet
        · rw [if_pos hp2] at hm
          exact ih _ all m hm (fun x hx => hb x (List.mem_cons_of_mem b hx))
        · rw [if_neg hp2] at hm
          rw [ih _ _ m hm (fun x hx => hb x (List.mem_cons_of_mem b hx)),
            afind_ainsert, if_neg (fun he => hbp he.symm)]

/-- C10 (amended): when every batch has non-empty results and `ys` is
the last contiguous run of pallet `p` — not continuing a run of `p`
from `xs`, and with no batch of `p` among the remaining batches `zs` —
`map_results` returns `Ok` and the returned map binds `p` to exactly
the inner map built from that run: each later run's insert replaces any
earlier entry for `p` entirely, wherever in the sequence the last run
sits. -/
theorem C10_last_run_wins_amended (re : Regress)
    (xs ys zs : List BenchmarkBatch) (p : String)
    (h1 : ∀ b ∈ xs ++ (ys ++ zs), b.results ≠ [])
    (h2 : ys ≠ [])
    (h3 : ∀ y ∈ ys, y.pallet = p)
    (h4 : ∀ l, xs.getLast? = some l → l.pallet ≠ p)
    (h5 : ∀ z ∈ zs, z.pallet ≠ p) :
    ∃ m, map_results re (xs ++ (ys ++ zs)) = .ok m ∧
      afind m p = some (buildRun re ys) := by
  obtain ⟨y0, ys', rfl⟩ := List.exists_cons_of_ne_nil h2
  have hne : ¬(xs ++ ((y0 :: ys') ++ zs)).isEmpty := by
    simp [List.isEmpty_iff]
  have hrun : ∀ (all' : AllMap),
      ∃ m, map_results_go re ((y0 :: ys') ++ zs) [] all' = .ok m ∧
        afind m p = some (buildRun re (y0 :: ys')) := by
    intro all'
    rw [map_results_go_run re p (y0 :: ys') zs [] all' (by simp)
      (fun y hy => h1 y (List.mem_append_right xs (List.mem_append_left zs hy)))
      h3
      (fun z hz => h5 z (List.mem_of_mem_head? hz))]
    obtain ⟨m, hm⟩ := map_results_go_ok re zs []
      (ainsert all' p ((y0 :: ys').foldl (insStep re) []))
    refine ⟨m, hm, ?_⟩
    rw [map_results_go_afind_frame re p zs [] _ m hm h5, afind_ainsert,
      if_pos rfl]
    rfl
  by_cases hxs : xs = []
  · subst hxs
    obtain ⟨m, hm, hfind⟩ := hrun []
    refine ⟨m, ?_, hfind⟩
    rw [map_results, if_neg hne, List.nil_append]
    exact hm
  · obtain ⟨all', hall'⟩ := map_results_go_prefix re xs ((y0 :: ys') ++ zs)
      [] [] hxs (by simp)
      (fun b hb => h1 b (List.mem_append_left _ hb))
      (by
        intro l h hl hh
        have hh0 : h = y0 := by
          rw [List.cons_append] at hh
          simp at hh
          exact hh.symm
        rw [hh0, h3 y0 (List.mem_cons_self y0 ys')]
        exact h4 l hl)
    obtain ⟨m, hm, hfind⟩ := hrun all'
    refine ⟨m, ?_, hfind⟩
    rw [map_results, if_neg hne, hall']
    exact hm

/-- C10 counterexample input: pallet `p1` appears in two separate runs
(violating contiguity) and the final `p1` run ends with a batch whose
results are empty. -/
def c10cex : List BenchmarkBatch :=
  [⟨"p1", "a", [row0]⟩, ⟨"p3", "x", [row0]⟩, ⟨"p1", "b", [row0]⟩,
    ⟨"p1", "e", []⟩]

/-- C10 counterexample: the last run of pallet `p1` consists of the
batches named `b` (non-empty results) and `e` (empty results), but the
returned map binds `p1` to a map that contains `a` — a benchmark of the
*first* run — and does not contain `b`: the later run did not replace
the earlier inner map. -/
theorem C10_last_run_wins_counterexample :
    ((map_results reW c10cex).toOption.bind (fun m => afind m ("p1"))).map
        (fun inner => ((afind inner ("a")).isSome, (afind inner ("b")).isSome)) =
      some (true, false) := by
  decide

theorem C10_last_run_wins_amended_witness :
    (∀ b ∈ [⟨"p1", "a", [row0]⟩, ⟨"p3", "x", [row0]⟩] ++
        ([(⟨"p1", "b", [row0]⟩ : BenchmarkBatch)] ++ [⟨"p3", "y", [row0]⟩]),
      b.results ≠ []) ∧
    ([(⟨"p1", "b", [row0]⟩ : BenchmarkBatch)] ≠ []) ∧
    (∀ y ∈ [(⟨"p1", "b", [row0]⟩ : BenchmarkBatch)], y.pallet = ("p1")) ∧
    (∀ l, [(⟨"p1", "a", [row0]⟩ : BenchmarkBatch),
        ⟨"p3", "x", [row0]⟩].getLast? = some l → l.pallet ≠ ("p1")) ∧
    (∀ z ∈ [(⟨"p3", "y", [row0]⟩ : BenchmarkBatch)], z.pallet ≠ ("p1")) ∧
    ∃ m, map_results reW ([⟨"p1", "a", [row0]⟩, ⟨"p3", "x", [row0]⟩] ++
        ([⟨"p1", "b", [row0]⟩] ++ [⟨"p3", "y", [row0]⟩])) = .ok m ∧
      afind m ("p1") = some (buildRun reW [⟨"p1", "b", [row0]⟩]) :=
  ⟨by decide, by decide, by decide, by decide, by decide,
    C10_last_run_wins_amended reW
      [⟨"p1", "a", [row0]⟩, ⟨"p3", "x", [row0]⟩]
      [⟨"p1", "b", [row0]⟩] [⟨"p3", "y", [row0]⟩]
      ("p1") (by decide) (by decide) (by decide) (by decide) (by decide)⟩

/-! Lemmas about `underscore`. -/

theorem chunk3_eq_nil_iff (l : List Char) : chunk3 l = [] ↔ l = [] := by
  rcases l with _ | ⟨c1, _ | ⟨c2, _ | ⟨c3, rest⟩⟩⟩ <;> simp [chunk3]

theorem joinSep_cons_of_ne_nil (g : List Char) (gs : List (List Char))
    (h : gs ≠ []) : joinSep (g :: gs) = g ++ '_' :: joinSep gs := by
  cases gs with
  | nil => exact absurd rfl h
  | cons g2 gs' => rfl

theorem joinSep_append_singleton (L : List (List Char)) (x : List Char) :
    joinSep (L ++ [x]) = if L = [] then x else joinSep L ++ '_' :: x := by
  induction L with
  | nil => simp [joinSep]
  | cons g L' ih =>
    cases L' with
    | nil => simp [joinSep]
    | cons g2 L'' =>
      rw [List.cons_append, joinSep_cons_of_ne_nil g _ (by simp), ih,
        if_neg (by simp : ¬(g2 :: L'' = [])),
        if_neg (by simp : ¬(g :: g2 :: L'' = [])),
        joinSep_cons_of_ne_nil g _ (by simp : (g2 :: L'' : List (List Char)) ≠ []),
        List.append_assoc]
      rfl

theorem foldl_underscoreStep_append :
    ∀ (cs : List Char) (l : List Char) (k : Nat),
      (cs.foldl underscoreStep (l, k)).1 =
        (cs.foldl underscoreStep ([], k)).1 ++ l := by
  intro cs
  induction cs with
  | nil => intro l k; simp
  | cons c cs' ih =>
    intro l k
    rw [List.foldl_cons, List.foldl_cons]
    by_cases hk : k ≠ 0 ∧ k % 3 = 0
    · simp only [underscoreStep, if_pos hk]
      rw [ih (c :: '_' :: l) (k + 1), ih (c :: '_' :: []) (k + 1),
        List.append_assoc]
      rfl
    · simp only [underscoreStep, if_neg hk]
      rw [ih (c :: l) (k + 1), ih (c :: []) (k + 1), List.append_assoc]
      rfl

/-- The loop of `underscore`, started at a multiple-of-three index `k`
over the reversed characters, produces the separator-joined groups (with
a pending separator when `k` marks a group boundary inside a longer
string). -/
theorem foldl_underscoreStep_chunks :
    ∀ (n : Nat) (rl : List Char), rl.length ≤ n → ∀ (k : Nat), k % 3 = 0 →
      (rl.foldl underscoreStep ([], k)).1 =
        joinSep (((chunk3 rl).map List.reverse).reverse) ++
          (if k ≠ 0 ∧ rl ≠ [] then ['_'] else []) := by
  intro n
  induction n with
  | zero =>
    intro rl hlen k hk
    have hnil : rl = [] := List.eq_nil_of_length_eq_zero (Nat.le_zero.1 hlen)
    subst hnil
    simp [chunk3, joinSep]
  | succ n ih =>
    intro rl hlen k hk
    rcases rl with _ | ⟨a, _ | ⟨b, _ | ⟨c, rl'⟩⟩⟩
    · simp [chunk3, joinSep]
    · simp only [List.foldl_cons, List.foldl_nil, underscoreStep]
      by_cases h0 : k = 0
      · subst h0
        simp [chunk3, joinSep]
      · rw [if_pos (⟨h0, hk⟩ : k ≠ 0 ∧ k % 3 = 0)]
        simp [chunk3, joinSep, h0]
    · have h1 : ¬((k + 1) ≠ 0 ∧ (k + 1) % 3 = 0) := by omega
      simp only [List.foldl_cons, List.foldl_nil, underscoreStep, if_neg h1]
      by_cases h0 : k = 0
      · subst h0
        simp [chunk3, joinSep]
      · rw [if_pos (⟨h0, hk⟩ : k ≠ 0 ∧ k % 3 = 0)]
        simp [chunk3, joinSep, h0]
    · have h1 : ¬((k + 1) ≠ 0 ∧ (k + 1) % 3 = 0) := by omega
      have h2 : ¬((k + 2) ≠ 0 ∧ (k + 2) % 3 = 0) := by omega
      have hlen' : rl'.length ≤ n := by
        simp only [List.length_cons] at hlen
        omega
      have hk3 : (k + 3) % 3 = 0 := by omega
      rw [List.foldl_cons, List.foldl_cons, List.foldl_cons]
      have hstep : underscoreStep (underscoreStep (underscoreStep ([], k) a) b) c =
          (c :: b :: a :: (if k ≠ 0 ∧ k % 3 = 0 then ['_'] else []), k + 3) := by
        simp only [underscoreStep, if_neg h1, if_neg h2]
      rw [hstep, foldl_underscoreStep_append rl' _ (k + 3),
        ih rl' hlen' (k + 3) hk3]
      have hch : chunk3 (a :: b :: c :: rl') = [a, b, c] :: chunk3 rl' := rfl
      rw [hch, List.map_cons, List.reverse_cons, joinSep_append_singleton]
      by_cases hrl : rl' = []
      · subst hrl
        rw [if_pos
            (by simp [chunk3] :
              (List.map List.reverse (chunk3 ([] : List Char))).reverse = []),
          if_neg (by simp : ¬((k + 3) ≠ 0 ∧ ([] : List Char) ≠ []))]
        by_cases h0 : k = 0
        · subst h0
          simp [chunk3, joinSep]
        · rw [if_pos (⟨h0, hk⟩ : k ≠ 0 ∧ k % 3 = 0),
            if_pos (⟨h0, by simp⟩ : k ≠ 0 ∧ a :: b :: c :: ([] : List Char) ≠ [])]
          simp [chunk3, joinSep]
      · have hchne : ((chunk3 rl').map List.reverse).reverse ≠ [] := by
          simp [chunk3_eq_nil_iff, hrl]
        rw [if_neg hchne,
          if_pos (⟨by omega, hrl⟩ : (k + 3) ≠ 0 ∧ rl' ≠ [])]
        by_cases h0 : k = 0
        · subst h0
          rw [if_neg (by simp : ¬((0 : Nat) ≠ 0 ∧ 0 % 3 = 0)),
            if_neg (by simp : ¬((0 : Nat) ≠ 0 ∧ a :: b :: c :: rl' ≠ []))]
          simp [List.append_assoc]
        · rw [if_pos (⟨h0, hk⟩ : k ≠ 0 ∧ k % 3 = 0),
            if_pos (⟨h0, by simp⟩ : k ≠ 0 ∧ a :: b :: c :: rl' ≠ [])]
          simp [List.append_assoc]

theorem chunk3_flatten : ∀ (l : List Char), (chunk3 l).flatten = l
  | [] => rfl
  | [c1] => by simp [chunk3]
  | [c1, c2] => by simp [chunk3]
  | c1 :: c2 :: c3 :: rest => by
    simp [chunk3, chunk3_flatten rest]

theorem chunk3_length_bounds :
    ∀ (l : List Char), ∀ g ∈ chunk3 l, 1 ≤ g.length ∧ g.length ≤ 3
  | [] => by simp [chunk3]
  | [c1] => by simp [chunk3]
  | [c1, c2] => by simp [chunk3]
  | c1 :: c2 :: c3 :: rest => by
    intro g hg
    rcases List.mem_cons.1 hg with rfl | hg'
    · simp
    · exact chunk3_length_bounds rest g hg'

theorem chunk3_dropLast_length :
    ∀ (l : List Char), ∀ g ∈ (chunk3 l).dropLast, g.length = 3
  | [] => by simp [chunk3]
  | [c1] => by simp [chunk3]
  | [c1, c2] => by simp [chunk3]
  | c1 :: c2 :: c3 :: rest => by
    intro g hg
    rw [show chunk3 (c1 :: c2 :: c3 :: rest) = [c1, c2, c3] :: chunk3 rest
      from rfl] at hg
    rcases hrest : chunk3 rest with _ | ⟨hd, tl⟩
    · rw [hrest] at hg
      simp at hg
    · rw [hrest, List.dropLast_cons_of_ne_nil (by simp)] at hg
      rcases List.mem_cons.1 hg with rfl | hg'
      · rfl
      · refine chunk3_dropLast_length rest g ?_
        rw [hrest]
        exact hg'

/-- C7: `underscore` returns its input with an underscore inserted after
every third character counted from the right end: the output is the
groups-of-three-from-the-right joined by underscores, every group except
possibly the leftmost has exactly three characters, each group has one
to three characters, and concatenating the groups (deleting the inserted
separators) recovers the input exactly. -/
theorem C7_underscore_thousands_separator (s : String) :
    underscore s = ⟨joinSep (groupsRight s.data)⟩ ∧
    (groupsRight s.data).flatten = s.data ∧
    (∀ g ∈ (groupsRight s.data).tail, g.length = 3) ∧
    (∀ g ∈ groupsRight s.data, 1 ≤ g.length ∧ g.length ≤ 3) := by
  refine ⟨?_, ?_, ?_, ?_⟩
  · rw [underscore,
      foldl_underscoreStep_chunks s.data.reverse.length s.data.reverse
        (Nat.le_refl _) 0 rfl,
      if_neg (by simp : ¬((0 : Nat) ≠ 0 ∧ s.data.reverse ≠ [])),
      List.append_nil]
    rfl
  · rw [groupsRight, ← List.reverse_flatten, chunk3_flatten, List.reverse_reverse]
  · intro g hg
    rw [groupsRight, List.tail_reverse, List.mem_reverse, ← List.map_dropLast,
      List.mem_map] at hg
    obtain ⟨g', hg', rfl⟩ := hg
    rw [List.length_reverse]
    exact chunk3_dropLast_length s.data.reverse g' hg'
  · intro g hg
    rw [groupsRight, List.mem_reverse, List.mem_map] at hg
    obtain ⟨g', hg', rfl⟩ := hg
    rw [List.length_reverse]
    exact chunk3_length_bounds s.data.reverse g' hg'

theorem C7_underscore_thousands_separator_witness :
    underscore ("1234567") = ⟨joinSep (groupsRight ("1234567").data)⟩ ∧
    (groupsRight ("1234567").data).flatten = ("1234567").data ∧
    (∀ g ∈ (groupsRight ("1234567").data).tail, g.length = 3) ∧
    (∀ g ∈ groupsRight ("1234567").data, 1 ≤ g.length ∧ g.length ≤ 3) :=
  C7_underscore_thousands_separator ("1234567")

/-- C8: for every JSON value passed to the join helper, if the value is
an array the helper outputs the renderings of its elements in order
joined by a single space, and otherwise it outputs the rendering of the
value unchanged (for any rendering function). -/
theorem C8_join_helper (render : Json → String) (v : Json) :
    (∀ elems, v = Json.arr elems →
      joinHelperOut render v =
        some (String.intercalate (" ") (elems.map render))) ∧
    (v.isArray = false → joinHelperOut render v = some (render v)) := by
  constructor
  · rintro elems rfl
    rfl
  · intro h
    cases v <;> first
      | rfl
      | (rw [joinHelperOut, h]; rfl)

/-- A concrete rendering function for the C8 witness. -/
def renderW : Json → String
  | .num n => toString n
  | _ => ""

theorem C8_join_helper_witness :
    (Json.arr [Json.num 1, Json.num 2] = Json.arr [Json.num 1, Json.num 2] →
      joinHelperOut renderW (Json.arr [Json.num 1, Json.num 2]) =
        some (String.intercalate (" ")
          ([Json.num 1, Json.num 2].map renderW))) ∧
    ((Json.num 7).isArray = false →
      joinHelperOut renderW (Json.num 7) = some (renderW (Json.num 7))) :=
  ⟨fun h => (C8_join_helper renderW (Json.arr [Json.num 1, Json.num 2])).1
      [Json.num 1, Json.num 2] h,
    fun h => (C8_join_helper renderW (Json.num 7)).2 h⟩

/-! Lemmas about `writeLoop` and `write_results`. -/

theorem writeLoop_error (env : Env) (cmd : BenchmarkCmd) (path : RPath)
    (template header : String) :
    ∀ (all : AllMap) (e : IOError),
      writeLoop env cmd path template header all = .error e →
      (∃ fp, env.createFile fp = .error e) ∨
      (∃ t d s, env.render t d = .error s ∧ e = io_error s) := by
  intro all
  induction all with
  | nil => intro e he; cases he
  | cons pr rest ih =>
    obtain ⟨pallet, results⟩ := pr
    intro e he
    rw [writeLoop] at he
    cases hc : env.createFile (outPath path pallet) with
    | error e' =>
      rw [hc] at he
      obtain rfl : e' = e := by cases he; rfl
      exact Or.inl ⟨outPath path pallet, hc⟩
    | ok u =>
      rw [hc] at he
      cases hr : env.render template (mkTemplateData env cmd header pallet results) with
      | error s =>
        rw [hr] at he
        obtain rfl : io_error s = e := by cases he; rfl
        exact Or.inr ⟨template, mkTemplateData env cmd header pallet results, s,
          hr, rfl⟩
      | ok contents =>
        rw [hr] at he
        cases hl : writeLoop env cmd path template header rest with
        | error e' =>
          rw [hl] at he
          obtain rfl : e' = e := by cases he; rfl
          exact ih _ hl
        | ok files =>
          rw [hl] at he
          cases he

theorem writeLoop_ok (env : Env) (cmd : BenchmarkCmd) (path : RPath)
    (template header : String) :
    ∀ (all : AllMap) (files : List (RPath × String)),
      writeLoop env cmd path template header all = .ok files →
      files.map Prod.fst = all.map (fun pr => outPath path pr.1) ∧
      files.length = all.length ∧
      ∀ i (hi : i < all.length) (hi' : i < files.length),
        env.render template
          (mkTemplateData env cmd header (all.get ⟨i, hi⟩).1 (all.get ⟨i, hi⟩).2) =
          .ok (files.get ⟨i, hi'⟩).2 := by
  intro all
  induction all with
  | nil =>
    intro files hf
    obtain rfl : ([] : List (RPath × String)) = files := by cases hf; rfl
    exact ⟨rfl, rfl, fun i hi => absurd hi (by simp)⟩
  | cons pr rest ih =>
    obtain ⟨pallet, results⟩ := pr
    intro files hf
    rw [writeLoop] at hf
    cases hc : env.createFile (outPath path pallet) with
    | error e' => rw [hc] at hf; cases hf
    | ok u =>
      rw [hc] at hf
      cases hr : env.render template (mkTemplateData env cmd header pallet results) with
      | error s => rw [hr] at hf; cases hf
      | ok contents =>
        rw [hr] at hf
        cases hl : writeLoop env cmd path template header rest with
        | error e' => rw [hl] at hf; cases hf
        | ok files' =>
          rw [hl] at hf
          obtain rfl : (outPath path pallet, contents) :: files' = files := by
            cases hf; rfl
          obtain ⟨hmap, hlen, hren⟩ := ih files' hl
          refine ⟨?_, ?_, ?_⟩
          · simp only [List.map_cons, hmap]
          · simp [hlen]
          · intro i hi hi'
            cases i with
            | zero => simpa using hr
            | succ j =>
              have hj : j < rest.length := by simpa using hi
              have hj' : j < files'.length := by simpa using hi'
              simpa using hren j hj hj'

theorem map_results_go_keys_nodup (re : Regress) :
    ∀ (bs : List BenchmarkBatch) (pm : PalletMap) (all : AllMap) (m : AllMap),
      (all.map Prod.fst).Nodup →
      map_results_go re bs pm all = .ok m → (m.map Prod.fst).Nodup := by
  intro bs
  induction bs with
  | nil =>
    intro pm all m hnd hm
    obtain rfl : all = m := by
      simpa [map_results_go] using hm
    exact hnd
  | cons b rest ih =>
    intro pm all m hnd hm
    by_cases hb : b.results.isEmpty
    · rw [map_results_go, if_pos hb] at hm
      exact ih pm all m hnd hm
    · have hne : b.results ≠ [] := by simpa [List.isEmpty_iff] using hb
      obtain ⟨bd, hbd⟩ : ∃ bd, get_benchmark_data re b = some bd := by
        cases hg : get_benchmark_data re b with
        | none => exact absurd ((get_benchmark_data_none_iff re b).1 hg) hne
        | some bd => exact ⟨bd, rfl⟩
      cases rest with
      | nil =>
        simp only [map_results_go, if_neg hb, hbd, Except.ok.injEq] at hm
        subst hm
        exact ainsert_keys_nodup all b.pallet _ hnd
      | cons nxt rest' =>
        simp only [map_results_go, if_neg hb, hbd] at hm
        by_cases hp : nxt.pallet = b.pallet
        · rw [if_pos hp] at hm
          exact ih _ all m hnd hm
        · rw [if_neg hp] at hm
          exact ih _ _ m (ainsert_keys_nodup all b.pallet _ hnd) hm

theorem map_results_go_keys_sub (re : Regress) :
    ∀ (bs : List BenchmarkBatch) (pm : PalletMap) (all : AllMap) (m : AllMap),
      map_results_go re bs pm all = .ok m →
      ∀ k ∈ m.map Prod.fst, k ∈ all.map Prod.fst ∨ ∃ b ∈ bs, b.pallet = k := by
  intro bs
  induction bs with
  | nil =>
    intro pm all m hm k hk
    obtain rfl : all = m := by simpa [map_results_go] using hm
    exact Or.inl hk
  | cons b rest ih =>
    intro pm all m hm k hk
    by_cases hb : b.results.isEmpty
    · rw [map_results_go, if_pos hb] at hm
      rcases ih pm all m hm k hk with h | ⟨b', hb', he⟩
      · exact Or.inl h
      · exact Or.inr ⟨b', List.mem_cons_of_mem b hb', he⟩
    · have hne : b.results ≠ [] := by simpa [List.isEmpty_iff] using hb
      obtain ⟨bd, hbd⟩ : ∃ bd, get_benchmark_data re b = some bd := by
        cases hg : get_benchmark_data re b with
        | none => exact absurd ((get_benchmark_data_none_iff re b).1 hg) hne
        | some bd => exact ⟨bd, rfl⟩
      have hstep : ∀ k, k ∈ (ainsert all b.pallet (ainsert pm b.benchmark bd)).map
          Prod.fst → k ∈ all.map Prod.fst ∨ k = b.pallet := by
        intro k hk
        rw [ainsert_keys] at hk
        by_cases hmem : b.pallet ∈ all.map Prod.fst
        · rw [if_pos hmem] at hk
          exact Or.inl hk
        · rw [if_neg hmem] at hk
          rcases List.mem_append.1 hk with h | h
          · exact Or.inl h
          · exact Or.inr (by simpa using h)
      cases rest with
      | nil =>
        simp only [map_results_go, if_neg hb, hbd, Except.ok.injEq] at hm
        subst hm
        rcases hstep k hk with h | h
        · exact Or.inl h
        · exact Or.inr ⟨b, List.mem_cons_self b [], h.symm⟩
      | cons nxt rest' =>
        simp only [map_results_go, if_neg hb, hbd] at hm
        by_cases hp : nxt.pallet = b.pallet
        · rw [if_pos hp] at hm
          rcases ih _ all m hm k hk with h | ⟨b', hb', he⟩
          · exact Or.inl h
          · exact Or.inr ⟨b', List.mem_cons_of_mem b hb', he⟩
        · rw [if_neg hp] at hm
          rcases ih _ _ m hm k hk with h | ⟨b', hb', he⟩
          · rcases hstep k h with h' | h'
            · exact Or.inl h'
            · exact Or.inr ⟨b, List.mem_cons_self b _, h'.symm⟩
          · exact Or.inr ⟨b', List.mem_cons_of_mem b hb', he⟩

theorem takeWhile_all {α : Type} (p : α → Bool) :
    ∀ (l : List α), (∀ a ∈ l, p a = true) → l.takeWhile p = l := by
  intro l
  induction l with
  | nil => intro _; rfl
  | cons a l' ih =>
    intro h
    rw [List.takeWhile_cons_of_pos (h a (List.mem_cons_self a l')),
      ih (fun x hx => h x (List.mem_cons_of_mem a hx))]

theorem extSplit_none_of_no_dot (cs : List Char) (h : ('.') ∉ cs) :
    extSplit cs = none := by
  rw [extSplit]
  have ht : cs.reverse.takeWhile (fun c => decide (c ≠ '.')) = cs.reverse := by
    refine takeWhile_all _ cs.reverse (fun a ha => ?_)
    have : a ∈ cs := List.mem_reverse.1 ha
    simp only [decide_eq_true_iff]
    intro he
    exact h (he ▸ this)
  simp only [ht, List.length_reverse]
  rw [if_neg (by omega)]

theorem splitSlash_no_slash (l : List Char) (h : ('/') ∉ l) :
    splitSlash l = [l] := by
  induction l with
  | nil => rfl
  | cons c rest ih =>
    have hc : ¬c = '/' := fun he => h (he ▸ List.mem_cons_self c rest)
    have hr : ('/') ∉ rest := fun hm => h (List.mem_cons_of_mem c hm)
    simp only [splitSlash, if_neg hc, ih hr]

theorem push_of_no_slash (p : RPath) (a : String) (hs : ('/') ∉ a.data)
    (hne : a.data ≠ []) : p.push a = ⟨p.components ++ [a]⟩ := by
  rw [RPath.push, splitSlash_no_slash a.data hs,
    List.filter_cons_of_pos (by simpa using hne)]
  rfl

theorem push_of_empty (p : RPath) (a : String) (hae : a.data = []) :
    p.push a = p := by
  rw [RPath.push, hae]
  show RPath.mk (p.components ++ []) = p
  rw [List.append_nil]

theorem setExtension_of_fileName_none (p : RPath) (e : String)
    (hp : p.fileName = none) : p.setExtension e = p := by
  have hgl : p.components.getLast? = none := hp
  rw [RPath.setExtension, hgl]

theorem outPath_of_clean (path : RPath) (a : String) (hp : path.fileName = none)
    (ha : ('.') ∉ a.data) (hs : ('/') ∉ a.data) (hne : a.data ≠ []) :
    outPath path a = ⟨path.components ++ [a ++ (".") ++ ("rs")]⟩ := by
  rw [outPath, if_pos hp, push_of_no_slash path a hs hne]
  simp only [RPath.setExtension, List.getLast?_concat,
    extSplit_none_of_no_dot a.data ha, List.dropLast_concat]

theorem outPath_of_empty (path : RPath) (a : String) (hp : path.fileName = none)
    (hae : a.data = []) : outPath path a = path := by
  rw [outPath, if_pos hp, push_of_empty path a hae,
    setExtension_of_fileName_none path _ hp]

theorem outPath_inj_of_clean (path : RPath) (a b : String)
    (hp : path.fileName = none)
    (ha : ('.') ∉ a.data) (hs : ('/') ∉ a.data)
    (hb : ('.') ∉ b.data) (hbs : ('/') ∉ b.data)
    (h : outPath path a = outPath path b) : a = b := by
  have hpl : path.components = [] := List.getLast?_eq_none_iff.1 hp
  by_cases hae : a.data = []
  · by_cases hbe : b.data = []
    · cases a
      cases b
      exact congrArg String.mk (hae.trans hbe.symm)
    · exfalso
      rw [outPath_of_empty path a hp hae,
        outPath_of_clean path b hp hb hbs hbe] at h
      have h2 := congrArg RPath.components h
      rw [hpl] at h2
      simp at h2
  · by_cases hbe : b.data = []
    · exfalso
      rw [outPath_of_empty path b hp hbe,
        outPath_of_clean path a hp ha hs hae] at h
      have h2 := congrArg RPath.components h
      rw [hpl] at h2
      simp at h2
    · rw [outPath_of_clean path a hp ha hs hae,
        outPath_of_clean path b hp hb hbs hbe] at h
      have h2 : path.components ++ [a ++ (".") ++ ("rs")] =
          path.components ++ [b ++ (".") ++ ("rs")] := congrArg RPath.components h
      have h3 : a ++ (".") ++ ("rs") = b ++ (".") ++ ("rs") := by simpa using h2
      have h4 : a.data ++ ('.' :: 'r' :: 's' :: []) =
          b.data ++ ('.' :: 'r' :: 's' :: []) := by
        have := congrArg String.data h3
        simpa [String.data_append] using this
      have h5 : a.data = b.data := by
        exact List.append_left_inj _ |>.1 h4
      cases a
      cases b
      exact congrArg String.mk h5

/-- Failure of `map_results` with the explicit error implies the input
was empty. -/
theorem map_results_error_iff_empty (re : Regress) (batches : List BenchmarkBatch)
    (e : WriterErr) (h : map_results re batches = .error e) :
    batches = [] ∧ e = .emptyBatches := by
  by_cases hb : batches.isEmpty
  · refine ⟨by simpa [List.isEmpty_iff] using hb, ?_⟩
    rw [map_results, if_pos hb] at h
    cases h
    rfl
  · obtain ⟨m, hm⟩ := map_results_go_ok re batches [] []
    rw [map_results, if_neg hb, hm] at h
    cases h

/-- On a successful run, every iteration's file creation and template
rendering succeeded: the loop recovers from no error. -/
theorem writeLoop_ok_ops (env : Env) (cmd : BenchmarkCmd) (path : RPath)
    (template header : String) :
    ∀ (all : AllMap) (files : List (RPath × String)),
      writeLoop env cmd path template header all = .ok files →
      ∀ pr ∈ all,
        (∃ u, env.createFile (outPath path pr.1) = .ok u) ∧
        (∃ s, env.render template
          (mkTemplateData env cmd header pr.1 pr.2) = .ok s) := by
  intro all
  induction all with
  | nil => intro files _ pr hpr; cases hpr
  | cons hd rest ih =>
    obtain ⟨pallet, results⟩ := hd
    intro files hf pr hpr
    rw [writeLoop] at hf
    cases hc : env.createFile (outPath path pallet) with
    | error e' => rw [hc] at hf; cases hf
    | ok u =>
      rw [hc] at hf
      cases hr : env.render template
          (mkTemplateData env cmd header pallet results) with
      | error s => rw [hr] at hf; cases hf
      | ok contents =>
        rw [hr] at hf
        cases hl : writeLoop env cmd path template header rest with
        | error e' => rw [hl] at hf; cases hf
        | ok files' =>
          rcases List.mem_cons.1 hpr with rfl | hpr'
          · exact ⟨⟨u, hc⟩, ⟨contents, hr⟩⟩
          · exact ih files' hl pr hpr'

/-- C5 (amended): `write_results` has no failure handling other than
propagating the empty-input error from `map_results`, the I/O errors
from reading the template or header file and from creating output
files, and renderer errors converted to I/O errors; it performs no
recovery — each such error is propagated the moment its stage is
reached, and a successful return means every file creation and every
rendering succeeded. -/
theorem C5_error_propagation_amended (env : Env) (re : Regress)
    (cmd : BenchmarkCmd) (path : RPath) (batches : List BenchmarkBatch) :
    (∀ e, write_results env re cmd path batches = .error e →
      (batches = [] ∧ e = io_error ("empty batches")) ∨
      (∃ f, cmd.template = some f ∧ env.readFile f = .error e) ∨
      (∃ f, cmd.header = some f ∧ env.readFile f = .error e) ∨
      (∃ fp, env.createFile fp = .error e) ∨
      (∃ t d s, env.render t d = .error s ∧ e = io_error s)) ∧
    (∀ f e, cmd.template = some f → env.readFile f = .error e →
      write_results env re cmd path batches = .error e) ∧
    (∀ t f e, loadTemplate env cmd = .ok t → cmd.header = some f →
      env.readFile f = .error e →
      write_results env re cmd path batches = .error e) ∧
    (∀ t h, loadTemplate env cmd = .ok t → loadHeader env cmd = .ok h →
      batches = [] →
      write_results env re cmd path batches =
        .error (io_error ("empty batches"))) ∧
    (∀ files, write_results env re cmd path batches = .ok files →
      ∃ t h all, loadTemplate env cmd = .ok t ∧ loadHeader env cmd = .ok h ∧
        map_results re batches = .ok all ∧
        ∀ pr ∈ all,
          (∃ u, env.createFile (outPath path pr.1) = .ok u) ∧
          (∃ s, env.render t
            (mkTemplateData env cmd h pr.1 pr.2) = .ok s)) := by
  refine ⟨?_, ?_, ?_, ?_, ?_⟩
  · intro e he
    rw [write_results] at he
    cases ht : loadTemplate env cmd with
    | error e' =>
      rw [ht] at he
      obtain rfl : e' = e := by cases he; rfl
      cases hc : cmd.template with
      | none => rw [loadTemplate, hc] at ht; cases ht
      | some f =>
        rw [loadTemplate, hc] at ht
        exact Or.inr (Or.inl ⟨f, rfl, ht⟩)
    | ok template =>
      rw [ht] at he
      cases hh : loadHeader env cmd with
      | error e' =>
        rw [hh] at he
        obtain rfl : e' = e := by cases he; rfl
        cases hc : cmd.header with
        | none => rw [loadHeader, hc] at hh; cases hh
        | some f =>
          rw [loadHeader, hc] at hh
          exact Or.inr (Or.inr (Or.inl ⟨f, rfl, hh⟩))
      | ok header =>
        rw [hh] at he
        cases hm : map_results re batches with
        | error we =>
          obtain ⟨hbatches, hwe⟩ := map_results_error_iff_empty re batches we hm
          subst hwe
          rw [hm] at he
          obtain rfl : io_error ("empty batches") = e := by cases he; rfl
          exact Or.inl ⟨hbatches, rfl⟩
        | ok all =>
          rw [hm] at he
          rcases writeLoop_error env cmd path template header all e he with
            h | h
          · exact Or.inr (Or.inr (Or.inr (Or.inl h)))
          · exact Or.inr (Or.inr (Or.inr (Or.inr h)))
  · intro f e hf he
    simp only [write_results, loadTemplate, hf, he]
  · intro t f e ht hf he
    simp only [write_results, ht, loadHeader, hf, he]
  · intro t h ht hh hbatches
    subst hbatches
    simp only [write_results, ht, hh]
    rfl
  · intro files hw
    rw [write_results] at hw
    cases ht : loadTemplate env cmd with
    | error e' => rw [ht] at hw; cases hw
    | ok t =>
      rw [ht] at hw
      cases hh : loadHeader env cmd with
      | error e' => rw [hh] at hw; cases hw
      | ok h =>
        rw [hh] at hw
        cases hm : map_results re batches with
        | error we => rw [hm] at hw; cases we <;> cases hw
        | ok all =>
          rw [hm] at hw
          exact ⟨t, h, all, rfl, rfl, rfl,
            writeLoop_ok_ops env cmd path t h all files hw⟩

/-- An environment in which no external operation can fail, used by the
C5 counterexample. -/
def envOK : Env :=
  { readFile := fun _ => .ok ("")
    createFile := fun _ => .ok ()
    render := fun _ _ => .ok ("")
    now := "2020-01-01"
    argv := []
    version := "2.0.0"
    defaultTemplate := "T" }

/-- A command with no template and no header file. -/
def cmdNone : BenchmarkCmd :=
  { template := none
    header := none
    steps := []
    repeatCount := 1
    lowest_range_values := []
    highest_range_values := []
    execution := ""
    wasm_method := ""
    chain := ""
    database_cache_size := 0 }

/-- C5 counterexample: with no template file, no header file, an
environment whose reads, file creations and renderings always succeed,
and an empty batch list, `write_results` still returns `Err` (the
"empty batches" error from `map_results`) — an error that is not an I/O
error from reading the template or header file, not a create/write
error, and not a renderer error, none of which can occur here. -/
theorem C5_error_propagation_counterexample :
    write_results envOK reW cmdNone ⟨[]⟩ [] =
      .error (io_error ("empty batches")) ∧
    cmdNone.template = none ∧
    cmdNone.header = none ∧
    envOK.readFile = (fun _ => .ok ("")) ∧
    envOK.createFile = (fun _ => .ok ()) ∧
    envOK.render = (fun _ _ => .ok ("")) :=
  ⟨rfl, rfl, rfl, rfl, rfl, rfl⟩

/-- An environment whose file reads always fail, used by the C5
witness. -/
def envBad : Env :=
  { readFile := fun _ => .error (io_error ("nope"))
    createFile := fun _ => .ok ()
    render := fun _ _ => .ok ("")
    now := "2020-01-01"
    argv := []
    version := "2.0.0"
    defaultTemplate := "T" }

/-- A command with a custom template file. -/
def cmdT : BenchmarkCmd := { cmdNone with template := some ("tpl") }

/-- The single file the C4 and C5 witness calls write. -/
def fileW : RPath × String := (⟨[("pallet_w.rs")]⟩, (""))

theorem C5_error_propagation_amended_witness :
    (cmdT.template = some ("tpl") ∧
      envBad.readFile ("tpl") = .error (io_error ("nope")) ∧
      write_results envBad reW cmdT ⟨[]⟩ [batchW] =
        .error (io_error ("nope"))) ∧
    (write_results envOK reW cmdNone ⟨[]⟩ [batchW] = .ok [fileW] ∧
      ∃ t h all, loadTemplate envOK cmdNone = .ok t ∧
        loadHeader envOK cmdNone = .ok h ∧
        map_results reW [batchW] = .ok all ∧
        ∀ pr ∈ all,
          (∃ u, envOK.createFile (outPath ⟨[]⟩ pr.1) = .ok u) ∧
          (∃ s, envOK.render t
            (mkTemplateData envOK cmdNone h pr.1 pr.2) = .ok s)) :=
  ⟨⟨rfl, rfl,
    (C5_error_propagation_amended envBad reW cmdT ⟨[]⟩ [batchW]).2.1
      ("tpl") (io_error ("nope")) rfl rfl⟩,
    ⟨by decide,
      (C5_error_propagation_amended envOK reW cmdNone ⟨[]⟩ [batchW]).2.2.2.2
        [fileW] (by decide)⟩⟩

/-- C4 (amended): when the output path has no file name component and no
owner name contains a dot or a path separator, a successful
`write_results` call creates exactly one output file per owner —
pairwise distinct paths `path/owner.rs`, one per entry of the grouped
map, in order — and each file's contents are the rendering of the
template over that owner's assembled data record. -/
theorem C4_one_file_per_owner_amended (env : Env) (re : Regress)
    (cmd : BenchmarkCmd) (path : RPath) (batches : List BenchmarkBatch)
    (files : List (RPath × String))
    (hpath : path.fileName = none)
    (hdot : ∀ b ∈ batches, ('.') ∉ b.pallet.data ∧ ('/') ∉ b.pallet.data)
    (hw : write_results env re cmd path batches = .ok files) :
    ∃ all template header,
      map_results re batches = .ok all ∧
      loadTemplate env cmd = .ok template ∧
      loadHeader env cmd = .ok header ∧
      files.map Prod.fst = all.map (fun pr => outPath path pr.1) ∧
      (files.map Prod.fst).Nodup ∧
      files.length = all.length ∧
      (∀ i (hi : i < all.length) (hi' : i < files.length),
        env.render template
          (mkTemplateData env cmd header (all.get ⟨i, hi⟩).1
            (all.get ⟨i, hi⟩).2) =
          .ok (files.get ⟨i, hi'⟩).2) := by
  rw [write_results] at hw
  cases ht : loadTemplate env cmd with
  | error e' => rw [ht] at hw; cases hw
  | ok template =>
    rw [ht] at hw
    cases hh : loadHeader env cmd with
    | error e' => rw [hh] at hw; cases hw
    | ok header =>
      rw [hh] at hw
      cases hm : map_results re batches with
      | error we => rw [hm] at hw; cases we <;> cases hw
      | ok all =>
        rw [hm] at hw
        obtain ⟨hmap, hlen, hren⟩ :=
          writeLoop_ok env cmd path template header all files hw
        have hgo : map_results_go re batches [] [] = .ok all := by
          by_cases hb : batches.isEmpty
          · rw [map_results, if_pos hb] at hm; cases hm
          · rw [map_results, if_neg hb] at hm; exact hm
        have hkeys : (all.map Prod.fst).Nodup :=
          map_results_go_keys_nodup re batches [] [] all (by simp) hgo
        have hdotk : ∀ k ∈ all.map Prod.fst,
            ('.') ∉ k.data ∧ ('/') ∉ k.data := by
          intro k hk
          rcases map_results_go_keys_sub re batches [] [] all hgo k hk with
            h | ⟨b, hb, rfl⟩
          · simp at h
          · exact hdot b hb
        refine ⟨all, template, header, rfl, rfl, rfl, hmap, ?_, hlen, hren⟩
        have hmm : files.map Prod.fst =
            (all.map Prod.fst).map (fun k => outPath path k) := by
          rw [hmap, List.map_map]
          rfl
        rw [hmm]
        refine List.Nodup.map_on ?_ hkeys
        intro x hx y hy hxy
        exact outPath_inj_of_clean path x y hpath (hdotk x hx).1 (hdotk x hx).2
          (hdotk y hy).1 (hdotk y hy).2 hxy

/-- C4 counterexample, first input: two owners but an output path that
already has a file name. -/
def c4A : List BenchmarkBatch := [⟨"p1", "a", [row0]⟩, ⟨"p2", "b", [row0]⟩]

/-- C4 counterexample, second input: two owners whose names collide
after `set_extension`. -/
def c4B : List BenchmarkBatch := [⟨"a.x", "m", [row0]⟩, ⟨"a.y", "n", [row0]⟩]

/-- C4 counterexample, third input: two owners that differ only in a
trailing path separator, denoting the same file. -/
def c4C : List BenchmarkBatch := [⟨"b", "m", [row0]⟩, ⟨"b/", "n", [row0]⟩]

/-- C4 counterexample.  First input: the batches group into two owners
(`p1`, `p2`), but because the path `out.rs` has a file name, both
iterations create the same file `out.rs` — not one output file per
owner.  Second input: with an extensionless path, owners `a.x` and
`a.y` both produce the file `a.rs` (`set_extension` replaces the part
after the dot), so two owners share one output file.  Third input:
the dot-free owners `b` and `b/` also produce the same file `b.rs`
(`push` normalises the trailing separator away and `file_name` ignores
it), so again two owners share one output file. -/
theorem C4_one_file_per_owner_counterexample :
    ((write_results envOK reW cmdNone ⟨[("out.rs")]⟩ c4A).toOption.map
        (fun fs => fs.map Prod.fst) =
      some [⟨[("out.rs")]⟩, ⟨[("out.rs")]⟩] ∧
      (map_results reW c4A).toOption.map (fun all => all.map Prod.fst) =
        some [("p1"), ("p2")]) ∧
    ((write_results envOK reW cmdNone ⟨[]⟩ c4B).toOption.map
        (fun fs => fs.map Prod.fst) =
      some [⟨[("a.rs")]⟩, ⟨[("a.rs")]⟩] ∧
      (map_results reW c4B).toOption.map (fun all => all.map Prod.fst) =
        some [("a.x"), ("a.y")]) ∧
    ((write_results envOK reW cmdNone ⟨[]⟩ c4C).toOption.map
        (fun fs => fs.map Prod.fst) =
      some [⟨[("b.rs")]⟩, ⟨[("b.rs")]⟩] ∧
      (map_results reW c4C).toOption.map (fun all => all.map Prod.fst) =
        some [("b"), ("b/")]) := by
  refine ⟨⟨?_, ?_⟩, ⟨?_, ?_⟩, ⟨?_, ?_⟩⟩ <;> decide

theorem C4_one_file_per_owner_amended_witness :
    ((⟨[]⟩ : RPath).fileName = none) ∧
    (∀ b ∈ [batchW], ('.') ∉ b.pallet.data ∧ ('/') ∉ b.pallet.data) ∧
    (write_results envOK reW cmdNone ⟨[]⟩ [batchW] = .ok [fileW]) ∧
    ∃ all template header,
      map_results reW [batchW] = .ok all ∧
      loadTemplate envOK cmdNone = .ok template ∧
      loadHeader envOK cmdNone = .ok header ∧
      [fileW].map Prod.fst = all.map (fun pr => outPath ⟨[]⟩ pr.1) ∧
      ([fileW].map Prod.fst).Nodup ∧
      [fileW].length = all.length ∧
      (∀ i (hi : i < all.length) (hi' : i < [fileW].length),
        envOK.render template
          (mkTemplateData envOK cmdNone header (all.get ⟨i, hi⟩).1
            (all.get ⟨i, hi⟩).2) =
          .ok ([fileW].get ⟨i, hi'⟩).2) :=
  ⟨rfl, by decide, by decide,
    C4_one_file_per_owner_amended envOK reW cmdNone ⟨[]⟩ [batchW]
      [fileW] rfl (by decide) (by decide)⟩

end BenchWriter
